import Mathlib

/-!
Verification of the lesson-playback synchronization engine of the `aitutor`
repository: the script parser (`ActionSynchronizer.parseResponse`), the
action timeline scheduler (`checkActions` / `notifyActionComplete`) and the
voice-activity detector (`detectSilence` in `WhiteboardPage.tsx`).

The TypeScript code is shallowly embedded: strings are `List Char`, the
mutable class fields become an explicit state record, the recurring
`setTimeout` poll loop and the external completion notifications become an
explicit event schedule, and wall-clock instants (`Date.now()`) are natural
numbers carried on the events.
-/

namespace AiTutor

/-! ## Character and string helpers (JS semantics on `List Char`) -/

/-- The `'{'` character (written via its code so brace characters never
appear bare inside literals). -/
def lb : Char := '\x7b'

/-- The `'}'` character. -/
def rb : Char := '\x7d'

/-- The whitespace class used by JavaScript `String.trim` and the regex
class `\s`, restricted to the ASCII whitespace characters that can occur
in the scripts handled here. -/
def isJsWS (c : Char) : Bool :=
  c = ' ' || c = '\t' || c = '\n' || c = '\r' || c = '\x0b' || c = '\x0c'

/-- JavaScript `String.prototype.trim` on a list of characters. -/
def trimL (l : List Char) : List Char :=
  ((l.dropWhile isJsWS).reverse.dropWhile isJsWS).reverse

/-- JavaScript `response.split('\n')`. -/
def splitLines : List Char → List (List Char)
  | [] => [[]]
  | c :: rest =>
    if c = '\n' then [] :: splitLines rest
    else
      match splitLines rest with
      | l :: ls => (c :: l) :: ls
      | [] => [[c]]

/-- JavaScript `String.prototype.startsWith` on character lists. -/
def startsWithL : List Char → List Char → Bool
  | [], _ => true
  | _ :: _, [] => false
  | k :: ks, c :: cs => c = k && startsWithL ks cs

/-- Remove the prefix `k` from `l`, or `none` when `l` does not start
with `k`. -/
def stripPfx : List Char → List Char → Option (List Char)
  | [], l => some l
  | _ :: _, [] => none
  | k :: ks, c :: cs => if c = k then stripPfx ks cs else none

/-! ## Parsed data model (`ActionSynchronizer.ts`, part_000) -/

/-- `type ActionType = 'write' | 'draw' | 'highlight' | 'erase' | 'newpage'`. -/
inductive ActionType where
  | write | draw | highlight | erase | newpage
deriving DecidableEq, Repr

/-- `interface Action` — `timestamp` is milliseconds since playback start,
`executed` is the claimed flag mutated by the scheduler. -/
structure Action where
  type : ActionType
  content : List Char
  timestamp : Nat
  executed : Bool
deriving DecidableEq, Repr

/-- `interface SpeechSegment` — `duration` is optional in the source
(lines without a timestamp omit it) and may be negative when timestamps
decrease, hence `Option Int`. -/
structure SpeechSegment where
  text : List Char
  timestamp : Nat
  duration : Option Int
deriving DecidableEq, Repr

/-! ## The command scanner

`content.match(/(\{[^}]+\})/g)` and `content.replace(/(\{[^}]+\})/g, '')`:
a match is a `'{'` followed by at least one non-`'}'` character and the
next `'}'`; the global scan proceeds left to right. -/

/-- Single-pass scanner for all matches.  `pending = some ins` records
that an opening `'{'` has been seen and `ins` holds the characters read
since (all `≠ '}'`).  At a `'}'`: a non-empty `ins` completes the match
`'{' ++ ins ++ '}'` (the regex takes the first `'}'` as the closer); an
empty `ins` means the candidate `'{}'` cannot match (`[^}]+` needs at
least one character) and the scan resumes after it, as the regex engine
does after a failed start position.  An unclosed `'{'` at the end of the
input matches nothing — and no later start position can match either,
since no `'}'` remains. -/
def findCmdsAux (pending : Option (List Char)) : List Char → List (List Char)
  | [] => []
  | c :: r =>
    match pending with
    | none => if c = lb then findCmdsAux (some []) r else findCmdsAux none r
    | some ins =>
      if c = rb then
        if ins.isEmpty then findCmdsAux none r
        else (lb :: ins ++ [rb]) :: findCmdsAux none r
      else findCmdsAux (some (ins ++ [c])) r

/-- All matches of `/(\{[^}]+\})/g`, in scan order. -/
def findCmds (l : List Char) : List (List Char) := findCmdsAux none l

/-- The same scan keeping the unmatched characters: failed candidates
(`'{}'` pairs and an unclosed trailing `'{...'`) stay verbatim, matches
are removed. -/
def stripCmdsAux (pending : Option (List Char)) : List Char → List Char
  | [] =>
    (match pending with
     | none => []
     | some ins => lb :: ins)
  | c :: r =>
    match pending with
    | none => if c = lb then stripCmdsAux (some []) r else c :: stripCmdsAux none r
    | some ins =>
      if c = rb then
        if ins.isEmpty then lb :: rb :: stripCmdsAux none r
        else stripCmdsAux none r
      else stripCmdsAux (some (ins ++ [c])) r

/-- `content.replace(/(\{[^}]+\})/g, '')`: the input with every match
removed. -/
def stripCmds (l : List Char) : List Char := stripCmdsAux none l

/-! ## Command classification

The key prefixes checked with `startsWith`, and the anchored equivalents
of the inner regular expressions
`/{write:\s*"([^"]*)"}/`, `/{draw:([a-z]+)}/`, etc.  Since the patterns
begin with a literal brace-and-keyword, a match of the inner regex is: the
keyword prefix at some position, then (for the quoted forms) a maximal run
of `\s`, a `'"'`, the maximal run of non-`'"'` characters, `'"'` and
`'}'`; `.match` finds the leftmost such position. -/

/-- `'{write:'` -/
def wKey : List Char := [lb, 'w', 'r', 'i', 't', 'e', ':']

/-- `'{draw:'` -/
def dKey : List Char := [lb, 'd', 'r', 'a', 'w', ':']

/-- `'{highlight:'` -/
def hKey : List Char := [lb, 'h', 'i', 'g', 'h', 'l', 'i', 'g', 'h', 't', ':']

/-- `'{erase:'` -/
def eKey : List Char := [lb, 'e', 'r', 'a', 's', 'e', ':']

/-- `'{newpage:'` -/
def nKey : List Char := [lb, 'n', 'e', 'w', 'p', 'a', 'g', 'e', ':']

/-- Try the quoted-payload pattern `KEY\s*"([^"]*)"}` at the start of `l`;
returns the captured group. -/
def tryQuoted (key l : List Char) : Option (List Char) :=
  match stripPfx key l with
  | none => none
  | some rest =>
    match rest.dropWhile isJsWS with
    | '"' :: r3 =>
      match r3.dropWhile (fun c => !(c = '"')) with
      | '"' :: c :: _ =>
        if c = rb then some (r3.takeWhile (fun c => !(c = '"'))) else none
      | _ => none
    | _ => none

/-- Leftmost match of the quoted-payload pattern anywhere in `l`
(`actionText.match(/{KEY:\s*"([^"]*)"}/)`). -/
def matchQuoted (key : List Char) : List Char → Option (List Char)
  | [] => none
  | c :: r =>
    match tryQuoted key (c :: r) with
    | some s => some s
    | none => matchQuoted key r

/-- Lowercase ASCII letter, the class `[a-z]`. -/
def isLC (c : Char) : Bool := 'a' ≤ c && c ≤ 'z'

/-- Try `{draw:([a-z]+)}` at the start of `l`. -/
def tryDraw (l : List Char) : Option (List Char) :=
  match stripPfx dKey l with
  | none => none
  | some rest =>
    let tok := rest.takeWhile isLC
    match rest.dropWhile isLC with
    | c :: _ => if c = rb && !tok.isEmpty then some tok else none
    | [] => none

/-- Leftmost match of `{draw:([a-z]+)}` anywhere in `l`. -/
def matchDraw : List Char → Option (List Char)
  | [] => none
  | c :: r =>
    match tryDraw (c :: r) with
    | some s => some s
    | none => matchDraw r

/-- The `if/else if` chain of `parseResponse` determining `type` and
`actionContent` for one matched `{...}` substring (part_000, lines
89–113): `type` defaults to `'write'` and the content to the empty string
when the inner regex fails. -/
def classify (cd : List Char) : ActionType × List Char :=
  if startsWithL wKey cd then (.write, (matchQuoted wKey cd).getD [])
  else if startsWithL dKey cd then (.draw, (matchDraw cd).getD [])
  else if startsWithL hKey cd then (.highlight, (matchQuoted hKey cd).getD [])
  else if startsWithL eKey cd then (.erase, (matchQuoted eKey cd).getD [])
  else if startsWithL nKey cd then (.newpage, (matchQuoted nKey cd).getD [])
  else (.write, [])

/-- One matched substring to an optional `Action` — part_000 pushes only
when `actionContent || type === 'draw'` (line 115). -/
def pushAct (ts : Nat) (cd : List Char) : Option Action :=
  let tc := classify cd
  if !tc.2.isEmpty || tc.1 = ActionType.draw then
    some ⟨tc.1, tc.2, ts, false⟩
  else none

/-! ## Timestamp grammar and line parsing -/

/-- `\d` -/
def isDig (c : Char) : Bool := '0' ≤ c && c ≤ '9'

/-- Numeric value of a digit character (`parseInt` on one digit). -/
def digVal (c : Char) : Nat := c.toNat - 48

/-- The anchored timestamp pattern `^\[(\d{2}):(\d{2})\]`: on success the
minutes, seconds, and the rest of the line after the `']'`. -/
def tsMatch : List Char → Option (Nat × Nat × List Char)
  | '[' :: a :: b :: ':' :: c :: d :: ']' :: rest =>
    if isDig a && isDig b && isDig c && isDig d then
      some (digVal a * 10 + digVal b, digVal c * 10 + digVal d, rest)
    else none
  | _ => none

/-- The actions contributed by the payload of one timestamped line:
`actionMatches.forEach(...)` with the push filter. -/
def lineActions (ts : Nat) (content : List Char) : List Action :=
  (findCmds content).filterMap (pushAct ts)

/-- The body of `lines.forEach` in `parseResponse` (part_000, lines
69–156), with the mutable `previousTimestamp` and the two output arrays
made explicit.  Returns the actions and speech segments contributed by
the remaining lines. -/
def parseLinesFrom (prev : Nat) :
    List (List Char) → List Action × List SpeechSegment
  | [] => ([], [])
  | line :: rest =>
    if (trimL line).isEmpty then parseLinesFrom prev rest
    else
      match tsMatch line with
      | some (mm, ss, r) =>
        let ts := (mm * 60 + ss) * 1000
        let content := trimL r
        let cmds := findCmds content
        let res := parseLinesFrom ts rest
        if cmds.isEmpty then
          (res.1, ⟨content, ts, some ((ts : Int) - (prev : Int))⟩ :: res.2)
        else
          let spTxt := trimL (stripCmds content)
          (lineActions ts content ++ res.1,
           (if spTxt.isEmpty then [] else
             [(⟨spTxt, ts, some ((ts : Int) - (prev : Int))⟩ : SpeechSegment)])
             ++ res.2)
      | none =>
        let res := parseLinesFrom prev rest
        (res.1, ⟨trimL line, prev, none⟩ :: res.2)

/-- `ActionSynchronizer.parseResponse` (part_000): split on `'\n'` and
process each line. -/
def parseResponse (response : List Char) : List Action × List SpeechSegment :=
  parseLinesFrom 0 (splitLines response)

/-! ## Rendering (the `switch` in `checkActions`, part_000 lines 280–296) -/

/-- The canonical command string the scheduler hands to the executor for
an action: `{write: "C"}`, `{draw:C}`, `{highlight: "C"}`, `{erase: "C"}`,
`{newpage: "C"}`. -/
def renderAction (t : ActionType) (content : List Char) : List Char :=
  match t with
  | .write => wKey ++ ' ' :: '"' :: (content ++ ['"', rb])
  | .draw => dKey ++ (content ++ [rb])
  | .highlight => hKey ++ ' ' :: '"' :: (content ++ ['"', rb])
  | .erase => eKey ++ ' ' :: '"' :: (content ++ ['"', rb])
  | .newpage => nKey ++ ' ' :: '"' :: (content ++ ['"', rb])

/-! ## The scheduler (`ActionSynchronizer`, part_000)

The mutable fields of the class become a state record; `Date.now()`
becomes a `Nat` argument carried by each entry into the class.  The
executor callback (`actionCallback`) and the completion callback
(`onComplete`) become emitted outputs. -/

/-- The mutable session state of `ActionSynchronizer`. -/
structure SyncState where
  actions : List Action
  startTime : Nat
  isPlaying : Bool
  processingAction : Bool
  lastActionTime : Nat
  actionBuffer : List (List Char)
deriving DecidableEq, Repr

/-- An observable output of the scheduler: an invocation of the executor
callback with a rendered command, or an invocation of `onComplete`. -/
inductive Out where
  | act (cmd : List Char)
  | complete
deriving DecidableEq, Repr

/-- `const minActionSpacing = 800` (part_000, line 301). -/
def minActionSpacing : Nat := 800

/-- Stable insertion of an action into a timestamp-sorted list: the new
element goes before the first strictly larger timestamp. -/
def insertByTs (a : Action) : List Action → List Action
  | [] => [a]
  | b :: r => if a.timestamp ≤ b.timestamp then a :: b :: r else b :: insertByTs a r

/-- `[...this.actions].sort((a, b) => a.timestamp - b.timestamp)` —
JavaScript `Array.prototype.sort` is stable, which stable insertion sort
reproduces: ties keep their original (parse) order. -/
def sortByTs (as : List Action) : List Action := as.foldr insertByTs []

/-- The loop predicate: `!action.executed && action.timestamp <= elapsedTime`. -/
def eligible (elapsed : Nat) (a : Action) : Bool :=
  !a.executed && a.timestamp ≤ elapsed

/-- `action.executed = true` on the selected element: the scheduler
mutates the object in place, which aliases into `this.actions`; here the
first occurrence of the selected value is marked (indistinguishable from
marking any other equal duplicate). -/
def markFirst (p : Action) : List Action → List Action
  | [] => []
  | b :: r => if b = p then { b with executed := true } :: r else b :: markFirst p r

/-- The selection made by the `for` loop: the first action of the
timestamp-sorted copy that is unexecuted and due (`break` after the
first match). -/
def selectAction (elapsed : Nat) (as : List Action) : Option Action :=
  (sortByTs as).find? (eligible elapsed)

/-- `ActionSynchronizer.checkActions` (part_000, lines 253–341) as a
function of the current wall-clock instant.  The trailing
`setTimeout(() => this.checkActions(), ...)` re-scheduling is not state:
subsequent poll ticks appear as later events of a schedule.  The `for`
loop over the sorted copy (claiming at most one action) runs first, then
the completion check (lines 326–340) inspects the mutated state. -/
def checkActions (now : Nat) (s : SyncState) : SyncState × List Out :=
  if !s.isPlaying then (s, [])
  else if s.processingAction then (s, [])
  else
    let elapsed := now - s.startTime
    let afterLoop :=
      match selectAction elapsed s.actions with
      | some a =>
        let actionText := renderAction a.type a.content
        let timeSinceLast := elapsed - s.lastActionTime
        if s.processingAction ||
            (decide (0 < s.lastActionTime) && decide (timeSinceLast < minActionSpacing)) then
          -- buffer the action (too soon after the last one)
          ({ s with actions := markFirst a s.actions,
                    actionBuffer := s.actionBuffer ++ [actionText] }, ([] : List Out))
        else
          -- trigger the action
          ({ s with actions := markFirst a s.actions,
                    processingAction := true,
                    lastActionTime := elapsed }, [Out.act actionText])
      | none => (s, ([] : List Out))
    if afterLoop.1.actions.all (·.executed) && afterLoop.1.actionBuffer.isEmpty &&
        !afterLoop.1.processingAction && decide (0 < afterLoop.1.actions.length) then
      ({ afterLoop.1 with isPlaying := false }, afterLoop.2 ++ [Out.complete])
    else afterLoop

/-- `ActionSynchronizer.notifyActionComplete` (part_000, lines 227–248). -/
def notifyActionComplete (now : Nat) (s : SyncState) : SyncState × List Out :=
  let s0 := { s with processingAction := false }
  match s0.actionBuffer with
  | next :: restBuf =>
    if next.isEmpty then ({ s0 with actionBuffer := restBuf }, [])
    else ({ s0 with actionBuffer := restBuf, processingAction := true }, [.act next])
  | [] => checkActions now s0

/-- `ActionSynchronizer.loadResponse` (part_000, lines 168–178). -/
def loadResponse (response : List Char) (s : SyncState) : SyncState :=
  let parsed := parseResponse response
  { s with actions := parsed.1, actionBuffer := [], processingAction := false }

/-- `ActionSynchronizer.start` (part_000, lines 183–193): set the epoch,
begin playing and run the first poll immediately. -/
def startSync (now : Nat) (s : SyncState) : SyncState × List Out :=
  checkActions now { s with startTime := now, isPlaying := true, lastActionTime := 0 }

/-- `ActionSynchronizer.stop` (part_000, lines 198–206). -/
def stopSync (s : SyncState) : SyncState :=
  { s with isPlaying := false, processingAction := false, actionBuffer := [] }

/-- `ActionSynchronizer.getRemainingActions` (part_000, lines 364–366). -/
def getRemainingActions (s : SyncState) : List Action :=
  s.actions.filter (fun a => !a.executed)

/-- `ActionSynchronizer.getProgress` (part_000, lines 371–388):
`(elapsedTime, totalActions, completedActions, remainingActions)`. -/
def getProgress (now : Nat) (s : SyncState) : Nat × Nat × Nat × Nat :=
  let elapsedTime := if s.isPlaying then now - s.startTime else 0
  let total := s.actions.length
  let completed := (s.actions.filter (·.executed)).length
  (elapsedTime, total, completed, total - completed)

/-! ### Event schedules

A session run is an arbitrary interleaving of poll ticks (the
self-rescheduled `checkActions` timer) and completion notifications from
the executor, each carrying the value of `Date.now()` at that moment. -/

/-- An external event hitting the scheduler. -/
inductive Ev where
  | poll (now : Nat)
  | notify (now : Nat)
deriving DecidableEq, Repr

/-- One event step. -/
def step (s : SyncState) : Ev → SyncState × List Out
  | .poll now => checkActions now s
  | .notify now => notifyActionComplete now s

/-- Run a schedule, collecting the per-event output lists. -/
def runOuts (s : SyncState) : List Ev → List (List Out)
  | [] => []
  | e :: evs => (step s e).2 :: runOuts (step s e).1 evs

/-- Final state after a schedule. -/
def runSt (s : SyncState) : List Ev → SyncState
  | [] => s
  | e :: evs => runSt (step s e).1 evs

/-- All executor invocations of a run, in order. -/
def actsOf (outs : List (List Out)) : List (List Char) :=
  outs.flatten.filterMap (fun o => match o with | .act c => some c | .complete => none)

/-- Number of `onComplete` invocations of a run. -/
def completesOf (outs : List (List Out)) : Nat :=
  (outs.flatten.filter (fun o => o = Out.complete)).length

/-- Whether a single event's output list contains an executor invocation. -/
def emitsAct (os : List Out) : Bool :=
  os.any (fun o => match o with | .act _ => true | .complete => false)

/-! ## The voice-activity arbiter
(`detectSilence` in `WhiteboardPage.tsx`, first component, lines 295–386)

The closure variables `silenceFrames` / `speakingFrames`, the React state
`isUserSpeaking` and the pending `setTimeout` for the end-of-speech signal
become a state record.  Each animation-frame callback becomes a sample
event carrying the computed average energy (`sum / bufferLength / 255`, a
rational in `[0,1]`), the guard flags read on that frame, and the
wall-clock instant; pending timers fire at the first event whose instant
is past their deadline. -/

/-- `silenceThreshold = 0.04` (line 297). -/
def silenceThreshold : ℚ := mkRat 4 100

/-- `maxSilenceFrames = 60` (line 299). -/
def maxSilenceFrames : Nat := 60

/-- `minSpeakingFrames = 15` (line 301). -/
def minSpeakingFrames : Nat := 15

/-- `setTimeout(..., 500)` delay before sending `EOS` (line 375). -/
def eosDelay : Nat := 500

/-- The detector state. `pendingEOS` is the deadline of the scheduled,
not-yet-fired end-of-speech timeout, if any. -/
structure VadState where
  silenceFrames : Nat
  speakingFrames : Nat
  isUserSpeaking : Bool
  pendingEOS : Option Nat
deriving DecidableEq, Repr

/-- One energy sample together with the external flags the callback
reads: `silenceDetectionDisabledRef`, `isSpeaking` (AI speaking),
`aiSpeakingCooldown`, `aiResponseInProgressRef`, `lessonInProgress`, and
whether the websocket is open. -/
structure Sample where
  now : Nat
  avg : ℚ
  disabled : Bool
  aiSpeaking : Bool
  cooldown : Bool
  responseInProgress : Bool
  lessonInProgress : Bool
  wsOpen : Bool
deriving DecidableEq, Repr

/-- An event for the detector: an animation-frame sample, or a moment at
which only due timers run. -/
inductive VEv where
  | sample (sm : Sample)
  | idle (now : Nat) (wsOpen : Bool)
deriving DecidableEq, Repr

/-- Observable signals sent over the websocket. -/
inductive VOut where
  | interrupt
  | endOfSpeech
deriving DecidableEq, Repr

/-- Fire the pending end-of-speech timeout if its deadline has passed:
the callback sends `EOS` when the websocket is open (lines 370–375). -/
def fireDue (now : Nat) (wsOpen : Bool) (st : VadState) : VadState × List VOut :=
  match st.pendingEOS with
  | some d =>
    if d ≤ now then
      ({ st with pendingEOS := none }, if wsOpen then [.endOfSpeech] else [])
    else (st, [])
  | none => (st, [])

/-- The body of one `detectSilence` animation-frame callback (lines
311–377), after the energy average has been computed. -/
def vadSample (sm : Sample) (st : VadState) : VadState × List VOut :=
  if sm.disabled then (st, [])
  else if silenceThreshold < sm.avg then
    -- potential speech detected
    let st1 := { st with silenceFrames := 0, speakingFrames := st.speakingFrames + 1 }
    if minSpeakingFrames ≤ st1.speakingFrames && !st1.isUserSpeaking &&
        !sm.aiSpeaking && !sm.cooldown && !sm.responseInProgress &&
        !sm.lessonInProgress then
      ({ st1 with isUserSpeaking := true },
       if sm.wsOpen then [.interrupt] else [])
    else (st1, [])
  else
    -- silence detected
    let st1 := { st with speakingFrames := 0, silenceFrames := st.silenceFrames + 1 }
    if maxSilenceFrames < st1.silenceFrames && st1.isUserSpeaking then
      -- clearTimeout on any pending EOS, then schedule a fresh one
      ({ st1 with isUserSpeaking := false, pendingEOS := some (sm.now + eosDelay) }, [])
    else (st1, [])

/-- One detector event: due timers fire first, then the sample (if any)
is processed. -/
def vadStep (st : VadState) : VEv → VadState × List VOut
  | .sample sm =>
    let fd := fireDue sm.now sm.wsOpen st
    let pr := vadSample sm fd.1
    (pr.1, fd.2 ++ pr.2)
  | .idle now wsOpen => fireDue now wsOpen st

/-- Run a list of detector events, collecting all outputs in order. -/
def runVad (st : VadState) : List VEv → VadState × List VOut
  | [] => (st, [])
  | e :: evs =>
    let pr := vadStep st e
    let rest := runVad pr.1 evs
    (rest.1, pr.2 ++ rest.2)

/-- Number of `interrupt` signals in an output list. -/
def countInt (os : List VOut) : Nat :=
  (os.filter (fun o => o = VOut.interrupt)).length

/-- Number of `end-of-speech` signals in an output list. -/
def countEos (os : List VOut) : Nat :=
  (os.filter (fun o => o = VOut.endOfSpeech)).length

/-- A loud (above-threshold) sample with all guard flags clear. -/
def loudClear (now : Nat) : VEv :=
  .sample ⟨now, 1, false, false, false, false, false, true⟩

/-- A loud sample while the guard holds (AI responding). -/
def loudGuarded (now : Nat) : VEv :=
  .sample ⟨now, 1, false, false, false, true, false, true⟩

/-- A silent (below-threshold) sample with all guard flags clear. -/
def silentClear (now : Nat) : VEv :=
  .sample ⟨now, 0, false, false, false, false, false, true⟩

/-! ## The documented script grammar (spec §4.1/§6), for the round-trip
claim

These definitions follow the specification's words, not the parser: a
script is a list of timestamped lines, each line a `[MM:SS]` prefix
followed by an interleaving of plain narration text and the five command
forms.  `impliedParse` is the action/speech list "implied by direct
construction". -/

/-- One of the five command forms, with its payload. -/
inductive Cmd where
  | write (s : List Char)
  | draw (s : List Char)
  | highlight (s : List Char)
  | erase (s : List Char)
  | newpage (s : List Char)
deriving DecidableEq, Repr

/-- The `kind` of a command form. -/
def cmdType : Cmd → ActionType
  | .write _ => .write
  | .draw _ => .draw
  | .highlight _ => .highlight
  | .erase _ => .erase
  | .newpage _ => .newpage

/-- The payload of a command form. -/
def cmdPayload : Cmd → List Char
  | .write s | .draw s | .highlight s | .erase s | .newpage s => s

/-- The canonical text of a command form (spec §6: `{write: "STRING"}`,
`{draw:TOKEN}`, ...). -/
def renderCmd (c : Cmd) : List Char :=
  renderAction (cmdType c) (cmdPayload c)

/-- A line segment: a run of narration text or one embedded command. -/
inductive Seg where
  | text (s : List Char)
  | cmd (c : Cmd)
deriving DecidableEq, Repr

/-- Rendered text of a segment. -/
def renderSeg : Seg → List Char
  | .text s => s
  | .cmd c => renderCmd c

/-- A timestamped script line `[MM:SS]<segments>`. -/
structure Line where
  mm : Nat
  ss : Nat
  segs : List Seg
deriving DecidableEq, Repr

/-- Digit character of `d < 10`. -/
def digitChar (d : Nat) : Char :=
  match d with
  | 0 => '0' | 1 => '1' | 2 => '2' | 3 => '3' | 4 => '4'
  | 5 => '5' | 6 => '6' | 7 => '7' | 8 => '8' | _ => '9'

/-- The `[MM:SS]` prefix, two-digit zero-padded fields. -/
def renderTs (mm ss : Nat) : List Char :=
  ['[', digitChar (mm / 10), digitChar (mm % 10), ':',
   digitChar (ss / 10), digitChar (ss % 10), ']']

/-- The payload of a line: its segments concatenated. -/
def renderBody (segs : List Seg) : List Char :=
  (segs.map renderSeg).flatten

/-- A full rendered line. -/
def renderLine (l : Line) : List Char :=
  renderTs l.mm l.ss ++ renderBody l.segs

/-- A full rendered script: lines joined by `'\n'`. -/
def renderScript (ls : List Line) : List Char :=
  (List.intersperse ['\n'] (ls.map renderLine)).flatten

/-- Characters allowed in a quoted payload: anything except the quote and
brace and newline characters that the surrounding syntax uses. -/
def goodQChar (c : Char) : Bool :=
  !(c = '"') && !(c = lb) && !(c = rb) && !(c = '\n')

/-- Characters allowed in narration text: no braces, no newline. -/
def goodTChar (c : Char) : Bool :=
  !(c = lb) && !(c = rb) && !(c = '\n')

/-- Well-formed command: non-empty payload of allowed characters
(lowercase token for `draw`). -/
def wfCmd : Cmd → Bool
  | .draw s => !s.isEmpty && s.all isLC
  | .write s | .highlight s | .erase s | .newpage s => !s.isEmpty && s.all goodQChar

/-- Well-formed segment. -/
def wfSeg : Seg → Bool
  | .text s => !s.isEmpty && s.all goodTChar
  | .cmd c => wfCmd c

/-- Well-formed line: two-digit fields, a non-empty payload with no
leading or trailing whitespace. -/
def wfLine (l : Line) : Bool :=
  decide (l.mm < 100) && decide (l.ss < 100) && !l.segs.isEmpty &&
    l.segs.all wfSeg && decide (trimL (renderBody l.segs) = renderBody l.segs)

/-- Millisecond timestamp of a line. -/
def tsOf (l : Line) : Nat := (l.mm * 60 + l.ss) * 1000

/-- The commands of a line, in order. -/
def cmdsOf (segs : List Seg) : List Cmd :=
  segs.filterMap (fun sg => match sg with | .cmd c => some c | .text _ => none)

/-- The narration chunks of a line, concatenated in order. -/
def chunksOf (segs : List Seg) : List Char :=
  (segs.filterMap (fun sg => match sg with | .text s => some s | .cmd _ => none)).flatten

/-- The parse "implied by direct construction" (spec §4.1): every command
becomes an Action at the line's timestamp; the narration text (commands
stripped, trimmed), when non-empty, becomes a SpeechSegment whose
duration is the gap to the previous timestamp. -/
def impliedParseFrom (prev : Nat) : List Line → List Action × List SpeechSegment
  | [] => ([], [])
  | l :: rest =>
    let ts := tsOf l
    let res := impliedParseFrom ts rest
    let sp := trimL (chunksOf l.segs)
    ((cmdsOf l.segs).map (fun c => ⟨cmdType c, cmdPayload c, ts, false⟩) ++ res.1,
     (if sp.isEmpty then [] else
       [(⟨sp, ts, some ((ts : Int) - (prev : Int))⟩ : SpeechSegment)]) ++ res.2)

/-- Implied parse of a whole script. -/
def impliedParse (ls : List Line) : List Action × List SpeechSegment :=
  impliedParseFrom 0 ls

/-! ## Concrete demonstration data -/

/-- A four-action timeline: two writes due at 0 ms and writes due at
800 ms and 900 ms. -/
def demoActions : List Action :=
  [⟨.write, ['a'], 0, false⟩, ⟨.write, ['b'], 0, false⟩,
   ⟨.write, ['c'], 800, false⟩, ⟨.write, ['d'], 900, false⟩]

/-- The session just after `load` + `start()` at epoch 0. -/
def demoStart : SyncState := ⟨demoActions, 0, true, false, 0, []⟩

/-- A legal schedule: the initial poll (which fires `a`), a completion
notification at 100 ms (which fires `b` via the hand-off), a completion
notification at 820 ms (which buffers `c`, 720 ms < 800 ms after the last
fire), a poll at 950 ms (850 ms ≥ 800 ms since the last fire, so `d`
fires directly), and the completion notification for `d` at 1200 ms
(which dispatches the buffered `c`). -/
def demoEvs : List Ev := [.poll 0, .notify 100, .notify 820, .poll 950, .notify 1200]

/-- The `dueAt` values of the dispatched commands of a run, recovered by
matching each dispatched string against the loaded timeline. -/
def firedTs (s : SyncState) (evs : List Ev) : List Nat :=
  (actsOf (runOuts s evs)).map (fun cmd =>
    ((s.actions.find? (fun a => renderAction a.type a.content = cmd)).map
      Action.timestamp).getD 0)

/-- Number of executor invocations in a single event's output. -/
def countActs (os : List Out) : Nat :=
  (os.filter (fun o => match o with | .act _ => true | .complete => false)).length

/-- Whether an event is a completion notification. -/
def isNotify : Ev → Bool
  | .notify _ => true
  | .poll _ => false

/-- The termination condition of the poll loop on the timeline data:
every action claimed, overflow empty, at least one action loaded. -/
def drained (s : SyncState) : Bool :=
  s.actions.all (·.executed) && s.actionBuffer.isEmpty && decide (0 < s.actions.length)

/-- Number of claimed (executed-flagged) actions. -/
def countExecuted (as : List Action) : Nat :=
  (as.filter (·.executed)).length

/-- The wall-clock instant of a detector event. -/
def evTime : VEv → Nat
  | .sample sm => sm.now
  | .idle now _ => now

/-- A below-threshold sample (or an idle moment): events that can never
drive the Silent → Speaking transition. -/
def isSilentEv : VEv → Bool
  | .sample sm => decide (sm.avg ≤ silenceThreshold)
  | .idle _ _ => true

/-- An above-threshold sample (not disabled) or an idle moment, with the
websocket open: events that can never drive the Speaking → Silent
transition. -/
def isLoudEv : VEv → Bool
  | .sample sm => decide (silenceThreshold < sm.avg) && !sm.disabled && sm.wsOpen
  | .idle _ ws => ws

/-- The characters of a rendered command strictly between its braces. -/
def innerOf : Cmd → List Char
  | .write s => 'w' :: 'r' :: 'i' :: 't' :: 'e' :: ':' :: ' ' :: '"' :: (s ++ ['"'])
  | .draw s => 'd' :: 'r' :: 'a' :: 'w' :: ':' :: s
  | .highlight s =>
      'h' :: 'i' :: 'g' :: 'h' :: 'l' :: 'i' :: 'g' :: 'h' :: 't' :: ':'
        :: ' ' :: '"' :: (s ++ ['"'])
  | .erase s => 'e' :: 'r' :: 'a' :: 's' :: 'e' :: ':' :: ' ' :: '"' :: (s ++ ['"'])
  | .newpage s =>
      'n' :: 'e' :: 'w' :: 'p' :: 'a' :: 'g' :: 'e' :: ':' :: ' ' :: '"' :: (s ++ ['"'])

/-- The session state reached from `demoStart` after the executor has
completed the first two actions and the 800 ms action has been buffered:
nothing is in flight and the overflow buffer holds one rendered command. -/
def dupNotifySt : SyncState := runSt demoStart [.poll 0, .notify 100, .notify 820]

/-- A line of the documented grammar with an empty `STRING` payload:
`[00:00] {write: ""}`. -/
def emptyPayloadLine : Line := ⟨0, 0, [Seg.cmd (Cmd.write [])]⟩

/-- Detector state in which the user is currently marked speaking. -/
def speakingVad : VadState := ⟨0, 0, true, none⟩

/-- 61 below-threshold samples at t = 100 ms (driving the
Speaking → Silent transition, which schedules the end-of-speech timeout
for t = 600 ms), then 15 above-threshold samples at t = 110 ms (a new
Silent → Speaking transition, well before the deadline), then an idle
moment at t = 700 ms at which due timers run. -/
def eosCancelEvs : List VEv :=
  List.replicate 61 (silentClear 100) ++ List.replicate 15 (loudClear 110) ++
    [.idle 700 true]

/-- A one-action session state mid-playback (one earlier fire at 100 ms). -/
def bufferedDemoSt : SyncState :=
  ⟨[⟨.write, ['x'], 0, false⟩], 0, true, false, 100, []⟩

/-- A drained one-action session: the single action is claimed, the
overflow is empty, nothing is in flight. -/
def drainedDemoSt : SyncState := ⟨[⟨.write, ['a'], 0, true⟩], 0, true, false, 0, []⟩

/-- A small well-formed script for the round-trip witness. -/
def rtLines : List Line :=
  [⟨0, 0, [Seg.text "Hello ".toList, Seg.cmd (Cmd.write "Hi".toList)]⟩,
   ⟨0, 5, [Seg.cmd (Cmd.draw "circle".toList)]⟩]

/-! # Claim theorems -/

/-- C2.  Monotonic firing fails on the code: on the timeline
`demoActions` with the legal schedule `demoEvs` the executor receives the
commands of the actions due at 0, 0, 900, 800 ms — in that order.  The
800 ms action was buffered by the spacing rule at the 820 ms
notification, and the poll at 950 ms then fires the 900 ms action
directly, overtaking the buffered one, which is only dispatched by the
final completion notification.  The sequence of `dueAt` values handed to
the executor is not non-decreasing. -/
theorem checkActions_fires_out_of_order :
    firedTs demoStart demoEvs = [0, 0, 900, 800] ∧
      ¬ List.Sorted (· ≤ ·) (firedTs demoStart demoEvs) := by
  constructor
  · decide
  · decide

/-- C3 counterexample.  An empty loaded timeline (a script with no
commands) never triggers `onComplete`: after `load` + `start()` every
action is (vacuously) executed, the overflow buffer is empty and nothing
is in flight, yet no schedule of further polls and notifications ever
emits `complete`, because the completion check also requires
`this.actions.length > 0`. -/
theorem onComplete_skipped_on_empty_timeline :
    (completesOf ((startSync 0 (loadResponse [] ⟨[], 0, false, false, 0, []⟩)).2 ::
        runOuts (startSync 0 (loadResponse [] ⟨[], 0, false, false, 0, []⟩)).1
          [.poll 1000, .notify 2000, .poll 5000]) = 0) ∧
      (startSync 0 (loadResponse [] ⟨[], 0, false, false, 0, []⟩)).1.actions.all
          (·.executed) = true ∧
      (startSync 0 (loadResponse [] ⟨[], 0, false, false, 0, []⟩)).1.actionBuffer = [] ∧
      (startSync 0 (loadResponse [] ⟨[], 0, false, false, 0, []⟩)).1.processingAction
          = false ∧
      (startSync 0 (loadResponse [] ⟨[], 0, false, false, 0, []⟩)).1.isPlaying = true := by
  refine ⟨?_, ?_, ?_, ?_, ?_⟩ <;> decide

/-- C4 counterexample.  A duplicate completion notification when no
action is in flight is not a no-op: in the reachable state `dupNotifySt`
(`processingAction = false`, buffer non-empty) it dispatches the buffered
command to the executor and pops the buffer. -/
theorem duplicate_notify_not_noop :
    dupNotifySt.processingAction = false ∧
      (notifyActionComplete 821 dupNotifySt).2
        = [.act (renderAction .write ['c'])] ∧
      (notifyActionComplete 821 dupNotifySt).1.actionBuffer
        ≠ dupNotifySt.actionBuffer := by
  refine ⟨?_, ?_, ?_⟩ <;> decide

/-- C6 counterexample.  The documented grammar (§6) allows any `STRING`
payload, in particular the empty one, but `parseResponse` drops a parsed
command whose extracted content is empty unless it is a `draw`
(`if (actionContent || type === 'draw')`, part_000 line 115): the script
`[00:00] {write: ""}` parses to no action at all, while direct
construction implies one write action. -/
theorem roundtrip_fails_on_empty_payload :
    (parseResponse (renderScript [emptyPayloadLine])).1 = [] ∧
      (impliedParse [emptyPayloadLine]).1
        = [⟨ActionType.write, [], 0, false⟩] := by
  constructor
  · decide
  · decide

/-- C7 counterexample.  `{draw:FOO}` matches none of the five documented
command forms (`draw` names are bare lowercase tokens), yet
`parseResponse` produces an Action for it: the `startsWith('{draw:')`
branch fixes `type = 'draw'`, the inner regex fails leaving the content
empty, and the `type === 'draw'` escape hatch pushes the action anyway. -/
theorem unknown_draw_command_not_dropped :
    (parseResponse "[00:00] \x7bdraw:FOO\x7d".toList).1
      = [⟨ActionType.draw, [], 0, false⟩] := by
  decide

/-- C9 counterexample.  A new Silent → Speaking transition before the
debounce deadline does not cancel the pending end-of-speech timeout: the
run emits the `interrupt` of the new transition and then still emits
`end-of-speech` when the 500 ms deadline passes — nothing in
`detectSilence` clears `userSpeakingTimeoutRef` on the speaking
transition. -/
theorem eos_not_cancelled_by_new_speech :
    (runVad speakingVad eosCancelEvs).2 = [VOut.interrupt, VOut.endOfSpeech] := by
  decide

/-! ## Scheduler lemmas -/

theorem insertByTs_perm (a : Action) (l : List Action) :
    (insertByTs a l).Perm (a :: l) := by
  induction l with
  | nil => simp [insertByTs]
  | cons b r ih =>
    simp only [insertByTs]
    by_cases h : a.timestamp ≤ b.timestamp
    · simp [h]
    · simp only [h, if_false]
      exact (ih.cons b).trans (List.Perm.swap a b r)

theorem sortByTs_perm (as : List Action) : (sortByTs as).Perm as := by
  induction as with
  | nil => simp [sortByTs]
  | cons a r ih =>
    simp only [sortByTs, List.foldr_cons]
    exact (insertByTs_perm a _).trans (ih.cons a)

theorem selectAction_mem {elapsed : Nat} {as : List Action} {a : Action}
    (h : selectAction elapsed as = some a) : a ∈ as :=
  (sortByTs_perm as).mem_iff.mp (List.mem_of_find?_eq_some h)

theorem selectAction_eligible {elapsed : Nat} {as : List Action} {a : Action}
    (h : selectAction elapsed as = some a) :
    a.executed = false ∧ a.timestamp ≤ elapsed := by
  have h2 := List.find?_some h
  simp [eligible] at h2
  exact h2

theorem selectAction_all_executed {elapsed : Nat} {as : List Action}
    (h : as.all (·.executed) = true) : selectAction elapsed as = none := by
  rw [selectAction, List.find?_eq_none]
  intro a hmem
  have : a ∈ as := (sortByTs_perm as).mem_iff.mp hmem
  have hx := List.all_eq_true.mp h a this
  simp [eligible]
  intro hc
  simp [hx] at hc

theorem markFirst_countExecuted (p : Action) :
    ∀ as, p ∈ as → p.executed = false →
      countExecuted (markFirst p as) = countExecuted as + 1 := by
  intro as
  induction as with
  | nil => intro h; simp at h
  | cons b r ih =>
    intro hmem hex
    simp only [markFirst]
    by_cases hb : b = p
    · subst hb
      simp [countExecuted, List.filter, hex]
    · rcases List.mem_cons.mp hmem with h1 | h2
      · exact absurd h1.symm hb
      · simp only [hb, if_false]
        rcases hbx : b.executed with _ | _ <;>
          simp [countExecuted, List.filter, hbx, countExecuted] at ih ⊢ <;>
          simp [ih h2 hex]

theorem markFirst_countRemaining (p : Action) :
    ∀ as, p ∈ as → p.executed = false →
      ((markFirst p as).filter (fun a => !a.executed)).length + 1
        = (as.filter (fun a => !a.executed)).length := by
  intro as
  induction as with
  | nil => intro h; simp at h
  | cons b r ih =>
    intro hmem hex
    simp only [markFirst]
    by_cases hb : b = p
    · subst hb
      simp [List.filter, hex]
    · rcases List.mem_cons.mp hmem with h1 | h2
      · exact absurd h1.symm hb
      · simp only [hb, if_false]
        have hih := ih h2 hex
        rcases hbx : b.executed with _ | _ <;> simp [List.filter, hbx] <;> omega

theorem checkActions_stopped (now : Nat) (s : SyncState)
    (h : s.isPlaying = false) : checkActions now s = (s, []) := by
  simp [checkActions, h]

theorem checkActions_inflight (now : Nat) (s : SyncState)
    (h : s.processingAction = true) : checkActions now s = (s, []) := by
  rcases hpl : s.isPlaying with _ | _
  · simp [checkActions, hpl]
  · simp [checkActions, hpl, h]

theorem checkActions_buffered (now : Nat) (s : SyncState) (a : Action)
    (hpl : s.isPlaying = true) (hpr : s.processingAction = false)
    (hsel : selectAction (now - s.startTime) s.actions = some a)
    (h1 : 0 < s.lastActionTime)
    (h2 : now - s.startTime - s.lastActionTime < minActionSpacing) :
    checkActions now s
      = ({ s with actions := markFirst a s.actions,
                  actionBuffer := s.actionBuffer
                    ++ [renderAction a.type a.content] }, []) := by
  simp [checkActions, hpl, hpr, hsel, h1, h2]

theorem checkActions_fired (now : Nat) (s : SyncState) (a : Action)
    (hpl : s.isPlaying = true) (hpr : s.processingAction = false)
    (hsel : selectAction (now - s.startTime) s.actions = some a)
    (hsp : ¬(0 < s.lastActionTime ∧
      now - s.startTime - s.lastActionTime < minActionSpacing)) :
    checkActions now s
      = ({ s with actions := markFirst a s.actions,
                  processingAction := true,
                  lastActionTime := now - s.startTime },
         [Out.act (renderAction a.type a.content)]) := by
  have hc : (decide (0 < s.lastActionTime) &&
      decide (now - s.startTime - s.lastActionTime < minActionSpacing)) = false := by
    rcases Decidable.not_and_iff_or_not.mp hsp with h | h <;> simp [h]
  simp [checkActions, hpl, hpr, hsel, hc]

theorem checkActions_none (now : Nat) (s : SyncState)
    (hpl : s.isPlaying = true) (hpr : s.processingAction = false)
    (hsel : selectAction (now - s.startTime) s.actions = none) :
    checkActions now s
      = if drained s then ({ s with isPlaying := false }, [Out.complete])
        else (s, []) := by
  have hc : (s.actions.all (·.executed) && s.actionBuffer.isEmpty &&
      true && decide (0 < s.actions.length)) = drained s := by
    simp [drained]
  simp only [checkActions, hpl, hpr, hsel, Bool.not_true, Bool.not_false,
    Bool.false_eq_true, if_false, if_true, ite_true, ite_false]
  rw [hc]
  simp

/-- C5.  The spacing rule: an in-flight poll tick selects nothing,
dispatches nothing and changes no state; a tick that selects a due
unfired action buffers its rendered command (without invoking the
executor) when `lastActionTime > 0` and the elapsed time since the last
fire is below the 800 ms threshold, and otherwise invokes the executor,
sets the in-flight flag and records the fire time; in both branches
exactly one action (the selected one) is newly claimed. -/
theorem spacing_rule (now : Nat) (s : SyncState) (a : Action)
    (hpl : s.isPlaying = true) (hpr : s.processingAction = false)
    (hsel : selectAction (now - s.startTime) s.actions = some a) :
    (0 < s.lastActionTime ∧
        now - s.startTime - s.lastActionTime < minActionSpacing →
      checkActions now s
        = ({ s with actions := markFirst a s.actions,
                    actionBuffer := s.actionBuffer
                      ++ [renderAction a.type a.content] }, [])) ∧
    (¬(0 < s.lastActionTime ∧
        now - s.startTime - s.lastActionTime < minActionSpacing) →
      checkActions now s
        = ({ s with actions := markFirst a s.actions,
                    processingAction := true,
                    lastActionTime := now - s.startTime },
           [Out.act (renderAction a.type a.content)])) ∧
    countExecuted (markFirst a s.actions) = countExecuted s.actions + 1 ∧
    (∀ s' : SyncState, s'.processingAction = true → checkActions now s' = (s', [])) := by
  refine ⟨fun h => checkActions_buffered now s a hpl hpr hsel h.1 h.2,
          fun h => checkActions_fired now s a hpl hpr hsel h,
          ?_, fun s' h => checkActions_inflight now s' h⟩
  exact markFirst_countExecuted a s.actions (selectAction_mem hsel)
    (selectAction_eligible hsel).1

/-- Witness for C5: on the loaded demo timeline at the initial poll the
fire branch applies (nothing fired yet), and the theorem's conclusion
evaluates on it. -/
theorem spacing_rule_witness :
    checkActions 0 demoStart
      = ({ demoStart with
            actions := markFirst ⟨.write, ['a'], 0, false⟩ demoStart.actions,
            processingAction := true, lastActionTime := 0 },
         [Out.act (renderAction .write ['a'])]) :=
  (spacing_rule 0 demoStart ⟨.write, ['a'], 0, false⟩ (by decide) (by decide)
    (by decide)).2.1 (by decide)

/-- C10.  A claimed-but-buffered action counts as completed: when a poll
tick buffers the selected action's rendered command instead of firing it,
the executor is not invoked, the command joins the overflow buffer — and
the action's `executed` flag is set anyway, so `getRemainingActions`
shrinks by one and the `completedActions` counter of `getProgress` grows
by one even though the executor has not been handed the command. -/
theorem buffered_action_counts_completed (now : Nat) (s : SyncState) (a : Action)
    (hpl : s.isPlaying = true) (hpr : s.processingAction = false)
    (hsel : selectAction (now - s.startTime) s.actions = some a)
    (h1 : 0 < s.lastActionTime)
    (h2 : now - s.startTime - s.lastActionTime < minActionSpacing) :
    (checkActions now s).2 = [] ∧
    (checkActions now s).1.actionBuffer
      = s.actionBuffer ++ [renderAction a.type a.content] ∧
    (getRemainingActions (checkActions now s).1).length + 1
      = (getRemainingActions s).length ∧
    (getProgress now (checkActions now s).1).2.2.1
      = (getProgress now s).2.2.1 + 1 := by
  have heq := checkActions_buffered now s a hpl hpr hsel h1 h2
  have hmem := selectAction_mem hsel
  have hex := (selectAction_eligible hsel).1
  rw [heq]
  refine ⟨rfl, rfl, ?_, ?_⟩
  · simpa [getRemainingActions] using markFirst_countRemaining a s.actions hmem hex
  · simpa [getProgress] using markFirst_countExecuted a s.actions hmem hex

/-- Witness for C10: at 500 ms the single due action is buffered
(400 ms < 800 ms since the last fire) and the counters move as stated. -/
theorem buffered_action_counts_completed_witness :
    (checkActions 500 bufferedDemoSt).2 = [] ∧
    (checkActions 500 bufferedDemoSt).1.actionBuffer
      = bufferedDemoSt.actionBuffer ++ [renderAction ActionType.write ['x']] ∧
    (getRemainingActions (checkActions 500 bufferedDemoSt).1).length + 1
      = (getRemainingActions bufferedDemoSt).length ∧
    (getProgress 500 (checkActions 500 bufferedDemoSt).1).2.2.1
      = (getProgress 500 bufferedDemoSt).2.2.1 + 1 :=
  buffered_action_counts_completed 500 bufferedDemoSt ⟨.write, ['x'], 0, false⟩
    (by decide) (by decide) (by decide) (by decide) (by decide)

/-- Replacing a field by the value it already holds is the identity. -/
theorem syncState_set_processing_self (s : SyncState)
    (h : s.processingAction = false) :
    { s with processingAction := false } = s := by
  cases s
  simp_all

/-- C4 (amended).  A duplicate completion notification when nothing is in
flight never crashes, but it is a no-op only in restricted circumstances:
with an empty overflow buffer it behaves exactly like an immediate poll
tick (`checkActions` at the same instant) — a genuine no-op when playback
is stopped — and with a non-empty buffer it dispatches the buffered head
to the executor and re-enters the in-flight state. -/
theorem duplicate_notify_behaviour (now : Nat) (s : SyncState)
    (hpr : s.processingAction = false) :
    (s.actionBuffer = [] → notifyActionComplete now s = checkActions now s) ∧
    (∀ c restBuf, s.actionBuffer = c :: restBuf → c ≠ [] →
      notifyActionComplete now s
        = ({ s with actionBuffer := restBuf, processingAction := true },
           [Out.act c])) ∧
    (s.actionBuffer = [] → s.isPlaying = false →
      notifyActionComplete now s = (s, [])) := by
  obtain ⟨as, stt, pl, pr, la, buf⟩ := s
  dsimp only at hpr
  subst hpr
  refine ⟨fun hb => ?_, fun c restBuf hb hc => ?_, fun hb hpl => ?_⟩
  · dsimp only at hb
    subst hb
    rfl
  · dsimp only at hb
    subst hb
    have hce : c.isEmpty = false := by
      cases c
      · exact absurd rfl hc
      · rfl
    simp [notifyActionComplete, hce]
  · dsimp only at hb hpl
    subst hb
    subst hpl
    exact checkActions_stopped now _ rfl

/-- Witness for C4: in the reachable state `dupNotifySt` (nothing in
flight, buffer non-empty) a duplicate notification dispatches the
buffered command. -/
theorem duplicate_notify_behaviour_witness :
    notifyActionComplete 900 dupNotifySt
      = ({ dupNotifySt with
            actionBuffer := [], processingAction := true },
         [Out.act (renderAction ActionType.write ['c'])]) :=
  (duplicate_notify_behaviour 900 dupNotifySt (by decide)).2.1
    (renderAction ActionType.write ['c']) [] (by decide) (by decide)

/-! ## Single-flight -/

theorem checkActions_emit (now : Nat) (s : SyncState)
    (h : emitsAct (checkActions now s).2 = true) :
    (checkActions now s).1.processingAction = true := by
  rcases hpl : s.isPlaying with _ | _
  · rw [checkActions_stopped now s hpl] at h
    simp [emitsAct] at h
  · rcases hpr : s.processingAction with _ | _
    · rcases hsel : selectAction (now - s.startTime) s.actions with _ | a
      · rw [checkActions_none now s hpl hpr hsel] at h
        rcases hd : drained s with _ | _ <;> simp [hd, emitsAct] at h
      · by_cases hsp : 0 < s.lastActionTime ∧
            now - s.startTime - s.lastActionTime < minActionSpacing
        · rw [checkActions_buffered now s a hpl hpr hsel hsp.1 hsp.2] at h
          simp [emitsAct] at h
        · rw [checkActions_fired now s a hpl hpr hsel hsp]
    · rw [checkActions_inflight now s hpr]
      exact hpr

theorem checkActions_outs (now : Nat) (s : SyncState) :
    (checkActions now s).2 = [] ∨ (∃ x, (checkActions now s).2 = [Out.act x]) ∨
      (checkActions now s).2 = [Out.complete] := by
  rcases hpl : s.isPlaying with _ | _
  · rw [checkActions_stopped now s hpl]
    exact Or.inl rfl
  · rcases hpr : s.processingAction with _ | _
    · rcases hsel : selectAction (now - s.startTime) s.actions with _ | a
      · rw [checkActions_none now s hpl hpr hsel]
        rcases hd : drained s with _ | _ <;> simp [hd]
      · by_cases hsp : 0 < s.lastActionTime ∧
            now - s.startTime - s.lastActionTime < minActionSpacing
        · rw [checkActions_buffered now s a hpl hpr hsel hsp.1 hsp.2]
          exact Or.inl rfl
        · rw [checkActions_fired now s a hpl hpr hsel hsp]
          exact Or.inr (Or.inl ⟨_, rfl⟩)
    · rw [checkActions_inflight now s hpr]
      exact Or.inl rfl

theorem notify_emit (now : Nat) (s : SyncState)
    (h : emitsAct (notifyActionComplete now s).2 = true) :
    (notifyActionComplete now s).1.processingAction = true := by
  obtain ⟨as, stt, pl, pr, la, buf⟩ := s
  cases buf with
  | nil => exact checkActions_emit now _ h
  | cons c rest =>
    rcases hce : c.isEmpty with _ | _ <;>
      simp only [notifyActionComplete, hce] at h ⊢
    · rfl
    · simp [emitsAct] at h

theorem notify_outs (now : Nat) (s : SyncState) :
    (notifyActionComplete now s).2 = [] ∨
      (∃ x, (notifyActionComplete now s).2 = [Out.act x]) ∨
      (notifyActionComplete now s).2 = [Out.complete] := by
  obtain ⟨as, stt, pl, pr, la, buf⟩ := s
  cases buf with
  | nil => exact checkActions_outs now _
  | cons c rest =>
    rcases hce : c.isEmpty with _ | _ <;>
      simp only [notifyActionComplete, hce]
    · exact Or.inr (Or.inl ⟨_, rfl⟩)
    · exact Or.inl rfl

theorem step_emit (s : SyncState) (e : Ev)
    (h : emitsAct (step s e).2 = true) : (step s e).1.processingAction = true := by
  cases e with
  | poll now => exact checkActions_emit now s h
  | notify now => exact notify_emit now s h

theorem step_acts_le_one (s : SyncState) (e : Ev) : countActs (step s e).2 ≤ 1 := by
  have h : (step s e).2 = [] ∨ (∃ x, (step s e).2 = [Out.act x]) ∨
      (step s e).2 = [Out.complete] := by
    cases e with
    | poll now => exact checkActions_outs now s
    | notify now => exact notify_outs now s
  rcases h with h | ⟨x, h⟩ | h <;> simp [h, countActs]

theorem poll_quiet (s : SyncState) (now : Nat) (h : s.processingAction = true) :
    step s (.poll now) = (s, []) := checkActions_inflight now s h

theorem no_emit_while_processing :
    ∀ (evs : List Ev) (s : SyncState), s.processingAction = true →
      ∀ j, emitsAct ((runOuts s evs).getD j []) = true →
        ∃ k t, k ≤ j ∧ evs.getD k (Ev.poll 0) = Ev.notify t := by
  intro evs
  induction evs with
  | nil =>
    intro s hs j hj
    simp [runOuts, emitsAct] at hj
  | cons e evs ih =>
    intro s hs j hj
    cases e with
    | notify t => exact ⟨0, t, Nat.zero_le _, rfl⟩
    | poll now =>
      rw [show runOuts s (Ev.poll now :: evs)
            = (step s (Ev.poll now)).2 :: runOuts (step s (Ev.poll now)).1 evs
          from rfl, poll_quiet s now hs] at hj
      cases j with
      | zero => simp [emitsAct] at hj
      | succ j' =>
        rw [List.getD_cons_succ] at hj
        obtain ⟨k, t, hk, hkev⟩ := ih s hs j' hj
        exact ⟨k + 1, t, Nat.succ_le_succ hk, by simpa using hkev⟩

/-- C1.  Single-flight: (i) a single poll or notification step hands the
executor at most one command; (ii) every step that invokes the executor
leaves the in-flight flag (`processingAction`) set; (iii) between any two
executor invocations of a run there is a completion notification — the
second invocation is either the immediate overflow hand-off inside
`notifyActionComplete` or occurs strictly after a notification cleared
the flag.  This holds for every state and every schedule of poll ticks
and completion notifications. -/
theorem single_flight (s₀ : SyncState) (evs : List Ev) :
    (∀ i, countActs ((runOuts s₀ evs).getD i []) ≤ 1) ∧
    (∀ (s : SyncState) (e : Ev), emitsAct (step s e).2 = true →
      (step s e).1.processingAction = true) ∧
    (∀ i j, i < j →
      emitsAct ((runOuts s₀ evs).getD i []) = true →
      emitsAct ((runOuts s₀ evs).getD j []) = true →
      ∃ k t, i < k ∧ k ≤ j ∧ evs.getD k (Ev.poll 0) = Ev.notify t) := by
  refine ⟨?_, fun s e h => step_emit s e h, ?_⟩
  · intro i
    induction evs generalizing s₀ i with
    | nil => simp [runOuts, countActs]
    | cons e evs ih =>
      cases i with
      | zero => exact step_acts_le_one s₀ e
      | succ i' => exact ih (step s₀ e).1 i'
  · intro i j hij hi hj
    induction evs generalizing s₀ i j with
    | nil => simp [runOuts, emitsAct] at hi
    | cons e evs ih =>
      rw [show runOuts s₀ (e :: evs)
            = (step s₀ e).2 :: runOuts (step s₀ e).1 evs from rfl] at hi hj
      cases i with
      | zero =>
        cases j with
        | zero => exact absurd hij (by omega)
        | succ j' =>
          rw [List.getD_cons_succ] at hj
          have hpr := step_emit s₀ e (by simpa using hi)
          obtain ⟨k, t, hk, hkev⟩ :=
            no_emit_while_processing evs (step s₀ e).1 hpr j' hj
          exact ⟨k + 1, t, Nat.succ_pos _, Nat.succ_le_succ hk, by simpa using hkev⟩
      | succ i' =>
        cases j with
        | zero => exact absurd hij (by omega)
        | succ j' =>
          rw [List.getD_cons_succ] at hi hj
          obtain ⟨k, t, hik, hkj, hkev⟩ :=
            ih (step s₀ e).1 i' j' (by omega) hi hj
          exact ⟨k + 1, t, by omega, by omega, by simpa using hkev⟩

/-- Witness for C1: on the demo run, the dispatches at steps 0 and 1 are
separated by the completion notification at step 1. -/
theorem single_flight_witness :
    ∃ k t, 0 < k ∧ k ≤ 1 ∧ demoEvs.getD k (Ev.poll 0) = Ev.notify t :=
  (single_flight demoStart demoEvs).2.2 0 1 (by omega) (by decide) (by decide)

/-! ## Completion -/

theorem notify_stopped (now : Nat) (s : SyncState)
    (hpl : s.isPlaying = false) (hb : s.actionBuffer = []) :
    notifyActionComplete now s = ({ s with processingAction := false }, []) := by
  obtain ⟨as, stt, pl, pr, la, buf⟩ := s
  dsimp only at hpl hb
  subst hpl
  subst hb
  exact checkActions_stopped now _ rfl

theorem completesOf_cons (os : List Out) (rest : List (List Out)) :
    completesOf (os :: rest)
      = (os.filter (fun o => o = Out.complete)).length + completesOf rest := by
  simp [completesOf, List.filter_append]

theorem checkActions_complete_iff (now : Nat) (s : SyncState) :
    Out.complete ∈ (checkActions now s).2 ↔
      s.isPlaying = true ∧ s.processingAction = false ∧ drained s = true := by
  constructor
  · intro h
    rcases hpl : s.isPlaying with _ | _
    · rw [checkActions_stopped now s hpl] at h
      simp at h
    · rcases hpr : s.processingAction with _ | _
      · rcases hsel : selectAction (now - s.startTime) s.actions with _ | a
        · rw [checkActions_none now s hpl hpr hsel] at h
          rcases hd : drained s with _ | _ <;> simp [hd] at h ⊢
        · by_cases hsp : 0 < s.lastActionTime ∧
              now - s.startTime - s.lastActionTime < minActionSpacing
          · rw [checkActions_buffered now s a hpl hpr hsel hsp.1 hsp.2] at h
            simp at h
          · rw [checkActions_fired now s a hpl hpr hsel hsp] at h
            simp at h
      · rw [checkActions_inflight now s hpr] at h
        simp at h
  · rintro ⟨hpl, hpr, hd⟩
    have hd' := hd
    simp only [drained, Bool.and_eq_true, decide_eq_true_eq] at hd'
    rw [checkActions_none now s hpl hpr (selectAction_all_executed hd'.1.1), hd]
    simp

theorem drained_parts (s : SyncState) (hd : drained s = true) :
    s.actions.all (·.executed) = true ∧ s.actionBuffer = [] ∧
      0 < s.actions.length := by
  simp only [drained, Bool.and_eq_true, decide_eq_true_eq] at hd
  refine ⟨hd.1.1, ?_, hd.2⟩
  have := hd.1.2
  cases hb : s.actionBuffer with
  | nil => rfl
  | cons c r => rw [hb] at this; simp at this

theorem notify_complete_iff (now : Nat) (s : SyncState) :
    Out.complete ∈ (notifyActionComplete now s).2 ↔
      s.isPlaying = true ∧ s.actionBuffer = [] ∧
        s.actions.all (·.executed) = true ∧ 0 < s.actions.length := by
  obtain ⟨as, stt, pl, pr, la, buf⟩ := s
  cases buf with
  | nil =>
    have h0 := checkActions_complete_iff now
      ({ actions := as, startTime := stt, isPlaying := pl, processingAction := false,
         lastActionTime := la, actionBuffer := [] } : SyncState)
    constructor
    · intro h
      obtain ⟨hpl, _, hd⟩ := h0.mp h
      obtain ⟨hall, _, hlen⟩ := drained_parts _ hd
      exact ⟨hpl, rfl, hall, hlen⟩
    · rintro ⟨hpl, _, hall, hlen⟩
      refine h0.mpr ⟨hpl, rfl, ?_⟩
      simp only [drained, Bool.and_eq_true, decide_eq_true_eq]
      exact ⟨⟨hall, rfl⟩, hlen⟩
  | cons c rest =>
    rcases hce : c.isEmpty with _ | _ <;>
      simp only [notifyActionComplete, hce] <;> simp

theorem checkActions_complete_dead (now : Nat) (s : SyncState)
    (hc : Out.complete ∈ (checkActions now s).2) :
    (checkActions now s).1.isPlaying = false ∧
      (checkActions now s).1.actionBuffer = [] := by
  obtain ⟨hpl, hpr, hd⟩ := (checkActions_complete_iff now s).mp hc
  obtain ⟨hall, hbuf, _⟩ := drained_parts s hd
  rw [checkActions_none now s hpl hpr (selectAction_all_executed hall), hd]
  simpa using hbuf

theorem step_complete_dead (s : SyncState) (e : Ev)
    (h : Out.complete ∈ (step s e).2) :
    (step s e).1.isPlaying = false ∧ (step s e).1.actionBuffer = [] := by
  cases e with
  | poll now => exact checkActions_complete_dead now s h
  | notify now =>
    obtain ⟨as, stt, pl, pr, la, buf⟩ := s
    cases buf with
    | nil => exact checkActions_complete_dead now _ h
    | cons c rest =>
      rcases hce : c.isEmpty with _ | _ <;>
        simp only [step, notifyActionComplete, hce] at h <;> simp at h

theorem dead_run : ∀ (evs : List Ev) (s : SyncState),
    s.isPlaying = false → s.actionBuffer = [] →
      completesOf (runOuts s evs) = 0 := by
  intro evs
  induction evs with
  | nil => intro s _ _; simp [runOuts, completesOf]
  | cons e evs ih =>
    intro s hpl hb
    have hstep : (step s e).2 = [] ∧ (step s e).1.isPlaying = false ∧
        (step s e).1.actionBuffer = [] := by
      cases e with
      | poll now =>
        rw [show step s (Ev.poll now) = checkActions now s from rfl,
          checkActions_stopped now s hpl]
        exact ⟨rfl, hpl, hb⟩
      | notify now =>
        rw [show step s (Ev.notify now) = notifyActionComplete now s from rfl,
          notify_stopped now s hpl hb]
        exact ⟨rfl, hpl, hb⟩
    rw [show runOuts s (e :: evs) = (step s e).2 :: runOuts (step s e).1 evs from rfl,
      completesOf_cons, hstep.1]
    simpa using ih (step s e).1 hstep.2.1 hstep.2.2

theorem step_outs (s : SyncState) (e : Ev) :
    (step s e).2 = [] ∨ (∃ x, (step s e).2 = [Out.act x]) ∨
      (step s e).2 = [Out.complete] := by
  cases e with
  | poll now => exact checkActions_outs now s
  | notify now => exact notify_outs now s

/-- C3 (amended, for timelines with at least one action).  Per
`start()`→drain cycle the completion callback runs at most once over any
schedule; a poll tick invokes it exactly when playback is on, nothing is
in flight and the timeline is drained (every action claimed, overflow
empty, at least one action); a completion notification invokes it exactly
when playback is on, the overflow is empty and every action of a
non-empty timeline is claimed (the notification itself clears the
in-flight flag); and once playback has stopped with an empty overflow no
schedule produces any further completion. -/
theorem completion_exactly_once (s₀ : SyncState) (evs : List Ev) :
    completesOf (runOuts s₀ evs) ≤ 1 ∧
    (∀ (s : SyncState) (now : Nat),
      (Out.complete ∈ (checkActions now s).2 ↔
        s.isPlaying = true ∧ s.processingAction = false ∧ drained s = true) ∧
      (Out.complete ∈ (notifyActionComplete now s).2 ↔
        s.isPlaying = true ∧ s.actionBuffer = [] ∧
          s.actions.all (·.executed) = true ∧ 0 < s.actions.length)) ∧
    (∀ s : SyncState, s.isPlaying = false → s.actionBuffer = [] →
      completesOf (runOuts s evs) = 0) := by
  refine ⟨?_, fun s now => ⟨checkActions_complete_iff now s, notify_complete_iff now s⟩,
    fun s hpl hb => dead_run evs s hpl hb⟩
  induction evs generalizing s₀ with
  | nil => simp [runOuts, completesOf]
  | cons e evs ih =>
    rw [show runOuts s₀ (e :: evs) = (step s₀ e).2 :: runOuts (step s₀ e).1 evs from rfl,
      completesOf_cons]
    by_cases hc : Out.complete ∈ (step s₀ e).2
    · obtain ⟨hpl, hb⟩ := step_complete_dead s₀ e hc
      have hz := dead_run evs (step s₀ e).1 hpl hb
      rcases step_outs s₀ e with h | ⟨x, h⟩ | h <;> rw [h] at hc ⊢ <;> simp at hc <;>
        simp [hz]
    · have h0 : ((step s₀ e).2.filter (fun o => o = Out.complete)).length = 0 := by
        rw [List.length_eq_zero, List.filter_eq_nil_iff]
        intro o ho
        simp
        intro he
        exact hc (he ▸ ho)
      rw [h0]
      simpa using ih (step s₀ e).1

/-- Witness for C3: in the drained state the next poll tick invokes the
completion callback. -/
theorem completion_exactly_once_witness :
    Out.complete ∈ (checkActions 5 drainedDemoSt).2 :=
  ((completion_exactly_once drainedDemoSt []).2.1 drainedDemoSt 5).1.mpr
    ⟨rfl, rfl, by decide⟩

/-! ## Voice-activity arbiter lemmas -/

theorem countInt_append (a b : List VOut) :
    countInt (a ++ b) = countInt a + countInt b := by
  simp [countInt, List.filter_append]

theorem countEos_append (a b : List VOut) :
    countEos (a ++ b) = countEos a + countEos b := by
  simp [countEos, List.filter_append]

theorem countInt_nil : countInt [] = 0 := rfl

theorem countInt_one : countInt [VOut.interrupt] = 1 := rfl

theorem countInt_eos : countInt [VOut.endOfSpeech] = 0 := rfl

theorem fireDue_parts (now : Nat) (ws : Bool) (st : VadState) :
    countInt (fireDue now ws st).2 = 0 ∧
    (fireDue now ws st).1.speakingFrames = st.speakingFrames ∧
    (fireDue now ws st).1.silenceFrames = st.silenceFrames ∧
    (fireDue now ws st).1.isUserSpeaking = st.isUserSpeaking := by
  rcases hp : st.pendingEOS with _ | d
  · simp [fireDue, hp, countInt]
  · by_cases hd : d ≤ now <;> cases ws <;> simp [fireDue, hp, hd, countInt]

theorem loudClear_step (t : Nat) (st : VadState) :
    countInt (vadStep st (loudClear t)).2
      = (if minSpeakingFrames ≤ st.speakingFrames + 1 ∧ st.isUserSpeaking = false
         then 1 else 0) ∧
    (vadStep st (loudClear t)).1.speakingFrames = st.speakingFrames + 1 ∧
    (vadStep st (loudClear t)).1.isUserSpeaking
      = (st.isUserSpeaking || decide (minSpeakingFrames ≤ st.speakingFrames + 1)) := by
  obtain ⟨h0, h1, h2, h3⟩ := fireDue_parts t true st
  have hth : silenceThreshold < (1 : ℚ) := by decide
  rcases hus : st.isUserSpeaking with _ | _ <;>
    by_cases hsf : minSpeakingFrames ≤ st.speakingFrames + 1 <;>
      simp [vadStep, loudClear, vadSample, hth, countInt_append, countInt_nil,
        countInt_one, h0, h1, h3, hus, hsf]

theorem loudGuarded_step (t : Nat) (st : VadState) :
    countInt (vadStep st (loudGuarded t)).2 = 0 ∧
    (vadStep st (loudGuarded t)).1.speakingFrames = st.speakingFrames + 1 ∧
    (vadStep st (loudGuarded t)).1.isUserSpeaking = st.isUserSpeaking := by
  obtain ⟨h0, h1, h2, h3⟩ := fireDue_parts t true st
  have hth : silenceThreshold < (1 : ℚ) := by decide
  simp [vadStep, loudGuarded, vadSample, hth, countInt_append, countInt_nil, h0, h1, h3]

theorem silent_no_int (e : VEv) (st : VadState) (h : isSilentEv e = true) :
    countInt (vadStep st e).2 = 0 := by
  cases e with
  | idle now ws =>
    simpa [vadStep] using (fireDue_parts now ws st).1
  | sample sm =>
    simp only [isSilentEv, decide_eq_true_eq] at h
    have hth : ¬(silenceThreshold < sm.avg) := not_lt.mpr h
    obtain ⟨h0, _, _, _⟩ := fireDue_parts sm.now sm.wsOpen st
    rcases hd : sm.disabled with _ | _
    · simp only [vadStep, vadSample, hd, hth, Bool.false_eq_true, if_false,
        ite_false, countInt_append, h0]
      split <;> simp [countInt_nil]
    · simp only [vadStep, vadSample, hd, if_true, ite_true, countInt_append, h0]
      simp [countInt_nil]

theorem runVad_silent_run : ∀ (evs : List VEv) (st : VadState),
    (∀ e ∈ evs, isSilentEv e = true) → countInt (runVad st evs).2 = 0 := by
  intro evs
  induction evs with
  | nil => intro st _; simp [runVad, countInt]
  | cons e evs ih =>
    intro st h
    rw [show runVad st (e :: evs)
          = ((runVad (vadStep st e).1 evs).1,
             (vadStep st e).2 ++ (runVad (vadStep st e).1 evs).2) from rfl,
      countInt_append, silent_no_int e st (h e (by simp))]
    simpa using ih (vadStep st e).1 (fun x hx => h x (by simp [hx]))

theorem runVad_louds_speaking : ∀ (m : Nat) (st : VadState),
    st.isUserSpeaking = true →
      countInt (runVad st (List.replicate m (loudClear 0))).2 = 0 := by
  intro m
  induction m with
  | zero => intro st _; simp [runVad, countInt]
  | succ m ih =>
    intro st hus
    obtain ⟨h0, h1, h2⟩ := loudClear_step 0 st
    rw [List.replicate_succ,
      show runVad st (loudClear 0 :: List.replicate m (loudClear 0))
        = ((runVad (vadStep st (loudClear 0)).1 (List.replicate m (loudClear 0))).1,
           (vadStep st (loudClear 0)).2
             ++ (runVad (vadStep st (loudClear 0)).1
                  (List.replicate m (loudClear 0))).2) from rfl,
      countInt_append, h0]
    rw [ih (vadStep st (loudClear 0)).1 (by rw [h2, hus]; simp)]
    simp [hus]

theorem runVad_louds_count : ∀ (m : Nat) (st : VadState),
    st.isUserSpeaking = false →
      countInt (runVad st (List.replicate m (loudClear 0))).2
        = if m = 0 ∨ st.speakingFrames + m < minSpeakingFrames then 0 else 1 := by
  intro m
  induction m with
  | zero => intro st _; simp [runVad, countInt]
  | succ m ih =>
    intro st hus
    obtain ⟨h0, h1, h2⟩ := loudClear_step 0 st
    rw [List.replicate_succ,
      show runVad st (loudClear 0 :: List.replicate m (loudClear 0))
        = ((runVad (vadStep st (loudClear 0)).1 (List.replicate m (loudClear 0))).1,
           (vadStep st (loudClear 0)).2
             ++ (runVad (vadStep st (loudClear 0)).1
                  (List.replicate m (loudClear 0))).2) from rfl,
      countInt_append, h0]
    by_cases hsf : minSpeakingFrames ≤ st.speakingFrames + 1
    · rw [if_pos ⟨hsf, hus⟩]
      rw [runVad_louds_speaking m (vadStep st (loudClear 0)).1 (by simp [h2, hus, hsf])]
      have hcon : ¬(m + 1 = 0 ∨ st.speakingFrames + (m + 1) < minSpeakingFrames) := by
        push_neg
        refine ⟨Nat.succ_ne_zero m, ?_⟩
        omega
      rw [if_neg hcon]
    · rw [if_neg (by intro hcon; exact hsf hcon.1)]
      rw [ih (vadStep st (loudClear 0)).1 (by simp [h2, hus, hsf]), h1, Nat.zero_add]
      have hsf' : st.speakingFrames + 1 < minSpeakingFrames := by omega
      rcases Nat.eq_zero_or_pos m with hm0 | hmp
      · subst hm0
        rw [if_pos (Or.inl rfl), if_pos (Or.inr (by omega))]
      · have he : (m = 0 ∨ st.speakingFrames + 1 + m < minSpeakingFrames)
            ↔ (m + 1 = 0 ∨ st.speakingFrames + (m + 1) < minSpeakingFrames) := by
          constructor
          · rintro (h | h)
            · exact absurd h (by omega)
            · exact Or.inr (by omega)
          · rintro (h | h)
            · exact absurd h (Nat.succ_ne_zero m)
            · exact Or.inr (by omega)
        rw [if_congr he rfl rfl]

theorem runVad_louds_guarded : ∀ (m : Nat) (st : VadState),
    countInt (runVad st (List.replicate m (loudGuarded 0))).2 = 0 ∧
    (runVad st (List.replicate m (loudGuarded 0))).1.speakingFrames
      = st.speakingFrames + m ∧
    (runVad st (List.replicate m (loudGuarded 0))).1.isUserSpeaking
      = st.isUserSpeaking := by
  intro m
  induction m with
  | zero => intro st; simp [runVad, countInt]
  | succ m ih =>
    intro st
    obtain ⟨h0, h1, h2⟩ := loudGuarded_step 0 st
    obtain ⟨g0, g1, g2⟩ := ih (vadStep st (loudGuarded 0)).1
    rw [List.replicate_succ,
      show runVad st (loudGuarded 0 :: List.replicate m (loudGuarded 0))
        = ((runVad (vadStep st (loudGuarded 0)).1 (List.replicate m (loudGuarded 0))).1,
           (vadStep st (loudGuarded 0)).2
             ++ (runVad (vadStep st (loudGuarded 0)).1
                  (List.replicate m (loudGuarded 0))).2) from rfl,
      countInt_append, h0, g0, g1, g2, h1, h2]
    refine ⟨rfl, by omega, rfl⟩

theorem runVad_append (xs ys : List VEv) : ∀ st : VadState,
    runVad st (xs ++ ys)
      = ((runVad (runVad st xs).1 ys).1,
         (runVad st xs).2 ++ (runVad (runVad st xs).1 ys).2) := by
  induction xs with
  | nil => intro st; simp [runVad]
  | cons e xs ih =>
    intro st
    simp only [List.cons_append,
      show ∀ l, runVad st (e :: l)
        = ((runVad (vadStep st e).1 l).1, (vadStep st e).2 ++ (runVad (vadStep st e).1 l).2)
        from fun _ => rfl]
    rw [ih (vadStep st e).1]
    simp [List.append_assoc]

theorem runVad_guarded_then_clear (st : VadState)
    (hus : st.isUserSpeaking = false) (hsf : st.speakingFrames = 0) :
    countInt (runVad st (List.replicate minSpeakingFrames (loudGuarded 0)
      ++ [loudClear 0])).2 = 1 := by
  rw [runVad_append, countInt_append, (runVad_louds_guarded minSpeakingFrames st).1]
  have g1 := (runVad_louds_guarded minSpeakingFrames st).2.1
  have g2 := (runVad_louds_guarded minSpeakingFrames st).2.2
  rw [show ([loudClear 0] : List VEv) = List.replicate 1 (loudClear 0) from rfl,
    runVad_louds_count 1 _ (by rw [g2]; exact hus), g1, hsf]
  simp [minSpeakingFrames]

/-- C8.  Arbiter hysteresis with guard counting, from any detector state
with a fresh speaking-run counter: (i) fewer than `minSpeakingFrames`
consecutive above-threshold samples followed by any amount of silence
never emit `interrupt`; (ii) `minSpeakingFrames` or more consecutive
above-threshold samples with the guard clear emit `interrupt` exactly
once; (iii) while the guard holds (here: an AI response in progress) the
same samples emit nothing but still advance the speaking-frame counter by
one per sample; (iv) if the guard lifts right after frame
`minSpeakingFrames`, the very next above-threshold sample emits the
interrupt. -/
theorem arbiter_hysteresis :
    (∀ (st : VadState) (k : Nat) (tail : List VEv),
      st.speakingFrames = 0 → k < minSpeakingFrames →
      (∀ e ∈ tail, isSilentEv e = true) →
      countInt (runVad st (List.replicate k (loudClear 0) ++ tail)).2 = 0) ∧
    (∀ (st : VadState) (m : Nat),
      st.isUserSpeaking = false → st.speakingFrames = 0 → minSpeakingFrames ≤ m →
      countInt (runVad st (List.replicate m (loudClear 0))).2 = 1) ∧
    (∀ (st : VadState) (m : Nat),
      countInt (runVad st (List.replicate m (loudGuarded 0))).2 = 0 ∧
      (runVad st (List.replicate m (loudGuarded 0))).1.speakingFrames
        = st.speakingFrames + m) ∧
    (∀ st : VadState,
      st.isUserSpeaking = false → st.speakingFrames = 0 →
      countInt (runVad st (List.replicate minSpeakingFrames (loudGuarded 0)
        ++ [loudClear 0])).2 = 1) := by
  refine ⟨?_, ?_, ?_, ?_⟩
  · intro st k tail hsf hk htail
    rw [runVad_append, countInt_append]
    have hlouds : countInt (runVad st (List.replicate k (loudClear 0))).2 = 0 := by
      rcases hus : st.isUserSpeaking with _ | _
      · rw [runVad_louds_count k st hus, hsf]
        simp only [Nat.zero_add]
        rcases Nat.eq_zero_or_pos k with h | h <;> simp [h, hk]
      · exact runVad_louds_speaking k st hus
    rw [hlouds, runVad_silent_run tail _ htail]
  · intro st m hus hsf hm
    rw [runVad_louds_count m st hus, hsf]
    have : ¬(m = 0 ∨ 0 + m < minSpeakingFrames) := by
      simp only [minSpeakingFrames] at hm ⊢
      push_neg
      exact ⟨by omega, by omega⟩
    rw [if_neg this]
  · intro st m
    exact ⟨(runVad_louds_guarded m st).1, (runVad_louds_guarded m st).2.1⟩
  · intro st hus hsf
    exact runVad_guarded_then_clear st hus hsf

/-- Witness for C8: from the initial detector state, 15 clear loud
samples emit exactly one interrupt. -/
theorem arbiter_hysteresis_witness :
    countInt (runVad ⟨0, 0, false, none⟩
      (List.replicate minSpeakingFrames (loudClear 0))).2 = 1 :=
  arbiter_hysteresis.2.1 ⟨0, 0, false, none⟩ minSpeakingFrames rfl rfl
    (Nat.le_refl _)

/-! ## End-of-speech debounce -/

theorem countEos_nil : countEos [] = 0 := rfl

theorem countEos_int : countEos [VOut.interrupt] = 0 := rfl

theorem countEos_one : countEos [VOut.endOfSpeech] = 1 := rfl

theorem fireDue_none (now : Nat) (ws : Bool) (st : VadState)
    (h : st.pendingEOS = none) : fireDue now ws st = (st, []) := by
  simp [fireDue, h]

theorem fireDue_not_due (now : Nat) (ws : Bool) (st : VadState) (d : Nat)
    (h : st.pendingEOS = some d) (hn : ¬d ≤ now) : fireDue now ws st = (st, []) := by
  simp [fireDue, h, hn]

theorem fireDue_due (now : Nat) (st : VadState) (d : Nat)
    (h : st.pendingEOS = some d) (hn : d ≤ now) :
    fireDue now true st = ({ st with pendingEOS := none }, [VOut.endOfSpeech]) := by
  simp [fireDue, h, hn]

theorem vadSample_loud (sm : Sample) (st : VadState)
    (hd : sm.disabled = false) (hth : silenceThreshold < sm.avg) :
    (vadSample sm st).1.pendingEOS = st.pendingEOS ∧
    countEos (vadSample sm st).2 = 0 := by
  simp only [vadSample, hd, hth, Bool.false_eq_true, if_false, if_true,
    ite_true, ite_false]
  split <;> simp [countEos]

theorem runVad_loud_no_pending : ∀ (evs : List VEv) (st : VadState),
    st.pendingEOS = none → (∀ e ∈ evs, isLoudEv e = true) →
      countEos (runVad st evs).2 = 0 := by
  intro evs
  induction evs with
  | nil => intro st _ _; simp [runVad, countEos_nil]
  | cons e evs ih =>
    intro st hp h
    have he := h e (by simp)
    rw [show runVad st (e :: evs)
          = ((runVad (vadStep st e).1 evs).1,
             (vadStep st e).2 ++ (runVad (vadStep st e).1 evs).2) from rfl,
      countEos_append]
    cases e with
    | idle now ws =>
      simp only [isLoudEv] at he
      rw [show vadStep st (VEv.idle now ws) = fireDue now ws st from rfl,
        fireDue_none now ws st hp, countEos_nil]
      simpa using ih st hp (fun x hx => h x (by simp [hx]))
    | sample sm =>
      simp only [isLoudEv, Bool.and_eq_true, decide_eq_true_eq,
        Bool.not_eq_true'] at he
      obtain ⟨⟨hth, hdis⟩, hws⟩ := he
      have hv := vadSample_loud sm st hdis hth
      rw [show vadStep st (VEv.sample sm)
            = ((vadSample sm (fireDue sm.now sm.wsOpen st).1).1,
               (fireDue sm.now sm.wsOpen st).2
                 ++ (vadSample sm (fireDue sm.now sm.wsOpen st).1).2) from rfl,
        fireDue_none sm.now sm.wsOpen st hp]
      have hv2 := vadSample_loud sm st hdis hth
      rw [countEos_append, countEos_nil, hv2.2]
      simpa using ih (vadSample sm st).1 (by rw [hv2.1]; exact hp)
        (fun x hx => h x (by simp [hx]))

theorem runVad_loud_pending : ∀ (evs : List VEv) (st : VadState) (d : Nat),
    st.pendingEOS = some d → (∀ e ∈ evs, isLoudEv e = true) →
      countEos (runVad st evs).2
        = if evs.any (fun e => decide (d ≤ evTime e)) then 1 else 0 := by
  intro evs
  induction evs with
  | nil => intro st d _ _; simp [runVad, countEos_nil]
  | cons e evs ih =>
    intro st d hp h
    have he := h e (by simp)
    rw [show runVad st (e :: evs)
          = ((runVad (vadStep st e).1 evs).1,
             (vadStep st e).2 ++ (runVad (vadStep st e).1 evs).2) from rfl,
      countEos_append]
    by_cases hdue : d ≤ evTime e
    · have hany : (e :: evs).any (fun e => decide (d ≤ evTime e)) = true := by
        simp [hdue]
      rw [if_pos hany]
      cases e with
      | idle now ws =>
        simp only [isLoudEv] at he
        subst he
        simp only [evTime] at hdue
        rw [show vadStep st (VEv.idle now true) = fireDue now true st from rfl,
          fireDue_due now st d hp hdue, countEos_one]
        rw [runVad_loud_no_pending evs _ rfl (fun x hx => h x (by simp [hx]))]
      | sample sm =>
        simp only [isLoudEv, Bool.and_eq_true, decide_eq_true_eq,
          Bool.not_eq_true'] at he
        obtain ⟨⟨hth, hdis⟩, hws⟩ := he
        simp only [evTime] at hdue
        have hfd : fireDue sm.now sm.wsOpen st
            = ({ st with pendingEOS := none }, [VOut.endOfSpeech]) := by
          rw [hws]
          exact fireDue_due sm.now st d hp hdue
        have hv := vadSample_loud sm { st with pendingEOS := none } hdis hth
        rw [show vadStep st (VEv.sample sm)
              = ((vadSample sm (fireDue sm.now sm.wsOpen st).1).1,
                 (fireDue sm.now sm.wsOpen st).2
                   ++ (vadSample sm (fireDue sm.now sm.wsOpen st).1).2) from rfl,
          hfd]
        rw [countEos_append, countEos_one, hv.2]
        rw [runVad_loud_no_pending evs _ (by rw [hv.1])
          (fun x hx => h x (by simp [hx]))]
    · have hany : ((e :: evs).any (fun e => decide (d ≤ evTime e)))
          = (evs.any (fun e => decide (d ≤ evTime e))) := by
        simp [hdue]
      rw [hany]
      cases e with
      | idle now ws =>
        simp only [evTime] at hdue
        rw [show vadStep st (VEv.idle now ws) = fireDue now ws st from rfl,
          fireDue_not_due now ws st d hp hdue, countEos_nil]
        simpa using ih st d hp (fun x hx => h x (by simp [hx]))
      | sample sm =>
        simp only [isLoudEv, Bool.and_eq_true, decide_eq_true_eq,
          Bool.not_eq_true'] at he
        obtain ⟨⟨hth, hdis⟩, hws⟩ := he
        simp only [evTime] at hdue
        have hv := vadSample_loud sm st hdis hth
        rw [show vadStep st (VEv.sample sm)
              = ((vadSample sm (fireDue sm.now sm.wsOpen st).1).1,
                 (fireDue sm.now sm.wsOpen st).2
                   ++ (vadSample sm (fireDue sm.now sm.wsOpen st).1).2) from rfl,
          fireDue_not_due sm.now sm.wsOpen st d hp hdue]
        rw [countEos_append, countEos_nil, hv.2]
        simpa using ih (vadSample sm st).1 d (by rw [hv.1]; exact hp)
          (fun x hx => h x (by simp [hx]))

/-- C9 (amended).  After a Speaking → Silent transition schedules the
end-of-speech timeout: (i) an above-threshold sample — in particular a
new Silent → Speaking transition — never cancels the pending timeout;
(ii) over any following events that are above-threshold samples or idle
moments (websocket open), the end-of-speech signal is emitted exactly
once as soon as an event time reaches the 500 ms deadline, and zero times
if none does; (iii) with no pending timeout such events emit no
end-of-speech at all. -/
theorem eos_debounce_behaviour :
    (∀ (st : VadState) (sm : Sample),
      sm.disabled = false → silenceThreshold < sm.avg →
      (vadSample sm st).1.pendingEOS = st.pendingEOS) ∧
    (∀ (st : VadState) (d : Nat) (evs : List VEv),
      st.pendingEOS = some d → (∀ e ∈ evs, isLoudEv e = true) →
      countEos (runVad st evs).2
        = if evs.any (fun e => decide (d ≤ evTime e)) then 1 else 0) ∧
    (∀ (st : VadState) (evs : List VEv),
      st.pendingEOS = none → (∀ e ∈ evs, isLoudEv e = true) →
      countEos (runVad st evs).2 = 0) :=
  ⟨fun st sm hd hth => (vadSample_loud sm st hd hth).1,
   fun st d evs hp h => runVad_loud_pending evs st d hp h,
   fun st evs hp h => runVad_loud_no_pending evs st hp h⟩

/-- Witness for C9: a pending 600 ms deadline fires exactly one
end-of-speech at an idle moment at 700 ms. -/
theorem eos_debounce_behaviour_witness :
    countEos (runVad ⟨0, 0, true, some 600⟩ [VEv.idle 700 true]).2 = 1 := by
  have h := eos_debounce_behaviour.2.1 ⟨0, 0, true, some 600⟩ 600
    [VEv.idle 700 true] rfl (by decide)
  simpa using h

/-! ## Unknown commands -/

theorem findCmdsAux_no_rb : ∀ (l : List Char) (x : List Char),
    rb ∉ l → findCmdsAux (some x) l = [] := by
  intro l
  induction l with
  | nil => intro x _; rfl
  | cons c r ih =>
    intro x h
    have hc : c ≠ rb := fun hc => h (by simp [hc])
    have hr : rb ∉ r := fun hm => h (by simp [hm])
    simp only [findCmdsAux, hc, if_false, ite_false]
    exact ih (x ++ [c]) hr

theorem stripCmdsAux_no_rb : ∀ (l : List Char) (x : List Char),
    rb ∉ l → stripCmdsAux (some x) l = lb :: (x ++ l) := by
  intro l
  induction l with
  | nil => intro x _; simp [stripCmdsAux]
  | cons c r ih =>
    intro x h
    have hc : c ≠ rb := fun hc => h (by simp [hc])
    have hr : rb ∉ r := fun hm => h (by simp [hm])
    simp only [stripCmdsAux, hc, if_false, ite_false]
    rw [ih (x ++ [c]) hr]
    simp

theorem stripCmdsAux_to_rb : ∀ (r1 : List Char), rb ∉ r1 →
    ∀ (acc r2 : List Char),
      stripCmdsAux (some acc) (r1 ++ rb :: r2)
        = if (acc ++ r1).isEmpty then lb :: rb :: stripCmdsAux none r2
          else stripCmdsAux none r2 := by
  intro r1
  induction r1 with
  | nil =>
    intro _ acc r2
    simp only [List.nil_append, stripCmdsAux, if_pos rfl, ite_true, List.append_nil]
  | cons c r1' ih =>
    intro h acc r2
    have hc : c ≠ rb := fun hc => h (by simp [hc])
    have hr : rb ∉ r1' := fun hm => h (by simp [hm])
    simp only [List.cons_append, stripCmdsAux, hc, if_false, ite_false,
      List.append_eq]
    rw [ih hr (acc ++ [c]) r2]
    rw [if_neg (by simp), if_neg (by simp)]

theorem split_at_rb : ∀ (r : List Char), rb ∈ r →
    ∃ r1 r2, r = r1 ++ rb :: r2 ∧ rb ∉ r1 := by
  intro r
  induction r with
  | nil => intro h; simp at h
  | cons c rest ih =>
    intro h
    by_cases hc : c = rb
    · exact ⟨[], rest, by simp [hc], by simp⟩
    · have : rb ∈ rest := by
        rcases List.mem_cons.mp h with h1 | h2
        · exact absurd h1.symm hc
        · exact h2
      obtain ⟨r1, r2, he, hn⟩ := ih this
      exact ⟨c :: r1, r2, by simp [he], by
        intro hm
        rcases List.mem_cons.mp hm with h1 | h2
        · exact hc h1.symm
        · exact hn h2⟩

theorem stripped_has_no_cmds : ∀ (n : Nat) (l : List Char), l.length ≤ n →
    findCmdsAux none (stripCmdsAux none l) = [] := by
  intro n
  induction n with
  | zero =>
    intro l hl
    have : l = [] := List.length_eq_zero.mp (Nat.le_zero.mp hl)
    subst this
    rfl
  | succ n ih =>
    intro l hl
    cases l with
    | nil => rfl
    | cons c r =>
      by_cases hc : c = lb
      · subst hc
        simp only [stripCmdsAux, if_pos rfl, ite_true]
        by_cases hrb : rb ∈ r
        · obtain ⟨r1, r2, he, hn⟩ := split_at_rb r hrb
          subst he
          rw [stripCmdsAux_to_rb r1 hn [] r2]
          simp only [List.nil_append]
          have hr2 : r2.length ≤ n := by
            have := hl
            simp [List.length_append] at this
            omega
          cases r1 with
          | nil =>
            simp only [List.isEmpty_nil, if_true, ite_true]
            show findCmdsAux none (stripCmdsAux none r2) = []
            exact ih r2 hr2
          | cons c1 r1' =>
            simp only [List.isEmpty_cons, Bool.false_eq_true, if_false, ite_false]
            exact ih r2 hr2
        · rw [stripCmdsAux_no_rb r [] hrb]
          simp only [List.nil_append, findCmdsAux, if_pos rfl, ite_true]
          exact findCmdsAux_no_rb r [] hrb
      · simp only [stripCmdsAux, hc, if_false, ite_false, findCmdsAux]
        exact ih r (by simpa using Nat.le_of_succ_le_succ hl)

/-- C7 (amended).  On timestamped lines: (i) after command-stripping no
`{...}` command substring remains, so no command — known or unknown —
appears in the line's speech text; (ii) a `{...}` substring that does not
begin with one of the five key prefixes produces no Action.  (Exceptions
the code forces: a substring beginning `{draw:` always yields a draw
Action, with empty content when malformed; a substring beginning with
another key yields an Action whenever the quoted-payload pattern matches
anywhere inside it; and commands on untimestamped lines are neither
extracted nor stripped, appearing verbatim in speech.)  `parseResponse`
is a total function by construction. -/
theorem unknown_commands_dropped :
    (∀ content : List Char, findCmds (stripCmds content) = []) ∧
    (∀ (ts : Nat) (cd : List Char),
      startsWithL wKey cd = false → startsWithL dKey cd = false →
      startsWithL hKey cd = false → startsWithL eKey cd = false →
      startsWithL nKey cd = false → pushAct ts cd = none) := by
  constructor
  · intro content
    exact stripped_has_no_cmds content.length content (Nat.le_refl _)
  · intro ts cd h1 h2 h3 h4 h5
    simp [pushAct, classify, h1, h2, h3, h4, h5]

/-- Witness for C7 (amended): the unknown command `{foo}` is stripped
from speech and produces no action. -/
theorem unknown_commands_dropped_witness :
    findCmds (stripCmds "a \x7bfoo\x7d b".toList) = [] ∧
      pushAct 0 "\x7bfoo\x7d".toList = none :=
  ⟨unknown_commands_dropped.1 "a \x7bfoo\x7d b".toList,
   unknown_commands_dropped.2 0 "\x7bfoo\x7d".toList
     (by decide) (by decide) (by decide) (by decide) (by decide)⟩

/-! ## Round-trip: list helpers -/

theorem takeWhile_append_all {α : Type} (p : α → Bool) :
    ∀ (s t : List α), (∀ c ∈ s, p c = true) →
      (s ++ t).takeWhile p = s ++ t.takeWhile p := by
  intro s
  induction s with
  | nil => intro t _; rfl
  | cons c r ih =>
    intro t h
    have hc := h c (by simp)
    simp only [List.cons_append, List.takeWhile_cons, hc, if_true, ite_true]
    rw [ih t (fun x hx => h x (by simp [hx]))]

theorem dropWhile_append_all {α : Type} (p : α → Bool) :
    ∀ (s t : List α), (∀ c ∈ s, p c = true) →
      (s ++ t).dropWhile p = t.dropWhile p := by
  intro s
  induction s with
  | nil => intro t _; rfl
  | cons c r ih =>
    intro t h
    have hc := h c (by simp)
    simp only [List.cons_append, List.dropWhile_cons, hc, if_true, ite_true]
    exact ih t (fun x hx => h x (by simp [hx]))

theorem all_mono {p q : Char → Bool} (h : ∀ c, p c = true → q c = true) :
    ∀ l : List Char, l.all p = true → l.all q = true := by
  intro l hl
  rw [List.all_eq_true] at hl ⊢
  exact fun x hx => h x (hl x hx)

theorem not_mem_of_all_ne (l : List Char) (x : Char)
    (h : l.all (fun c => !(c = x)) = true) : x ∉ l := by
  intro hm
  have := List.all_eq_true.mp h x hm
  simp at this

theorem stripPfx_self : ∀ (k l : List Char), stripPfx k (k ++ l) = some l := by
  intro k
  induction k with
  | nil => intro l; rfl
  | cons c ks ih =>
    intro l
    simp only [List.cons_append, stripPfx, if_pos rfl, ite_true]
    exact ih l

theorem startsWithL_self : ∀ (k l : List Char), startsWithL k (k ++ l) = true := by
  intro k
  induction k with
  | nil => intro l; rfl
  | cons c ks ih =>
    intro l
    simp only [List.cons_append, startsWithL, List.append_eq]
    rw [ih l]
    simp

/-! ## Round-trip: timestamp grammar -/

theorem digitChar_isDig (d : Nat) : isDig (digitChar d) = true := by
  rcases d with _ | _ | _ | _ | _ | _ | _ | _ | _ | d9 <;> simp [digitChar, isDig]

theorem digVal_digitChar (d : Nat) (h : d < 10) : digVal (digitChar d) = d := by
  interval_cases d <;> rfl

theorem digitChar_not_ws (d : Nat) : isJsWS (digitChar d) = false := by
  rcases d with _ | _ | _ | _ | _ | _ | _ | _ | _ | d9 <;> rfl

theorem digitChar_ne (d : Nat) (x : Char) (hx : isDig x = false) :
    (digitChar d = x) = False := by
  simp only [eq_iff_iff, iff_false]
  intro he
  rw [← he] at hx
  rw [digitChar_isDig d] at hx
  exact Bool.true_eq_false.mp hx

theorem tsMatch_render (mm ss : Nat) (hm : mm < 100) (hs : ss < 100)
    (body : List Char) :
    tsMatch (renderTs mm ss ++ body) = some (mm, ss, body) := by
  simp only [renderTs, List.cons_append, List.nil_append, tsMatch,
    digitChar_isDig, Bool.and_true, Bool.true_and, Bool.and_self, if_true, ite_true]
  rw [digVal_digitChar (mm / 10) (by omega), digVal_digitChar (mm % 10) (by omega),
    digVal_digitChar (ss / 10) (by omega), digVal_digitChar (ss % 10) (by omega)]
  have h1 : mm / 10 * 10 + mm % 10 = mm := by omega
  have h2 : ss / 10 * 10 + ss % 10 = ss := by omega
  rw [h1, h2]

theorem trimL_head_not_ws (c : Char) (r : List Char) (h : isJsWS c = false) :
    (trimL (c :: r)).isEmpty = false := by
  simp only [trimL, List.dropWhile_cons, h, Bool.false_eq_true, if_false, ite_false]
  rcases he : (((c :: r).reverse.dropWhile isJsWS).reverse).isEmpty with _ | _
  · rfl
  · exfalso
    rw [List.isEmpty_eq_true, List.reverse_eq_nil_iff, List.dropWhile_eq_nil_iff] at he
    have := he c (by simp)
    rw [h] at this
    exact Bool.false_eq_true.mp this

/-! ## Round-trip: the command scanner on rendered bodies -/

theorem findCmdsAux_skip : ∀ (s X : List Char), (∀ c ∈ s, (c = lb) = False) →
    findCmdsAux none (s ++ X) = findCmdsAux none X := by
  intro s
  induction s with
  | nil => intro X _; rfl
  | cons c r ih =>
    intro X h
    have hc : ¬(c = lb) := (h c (by simp)) ▸ id
    simp only [List.cons_append, findCmdsAux, hc, if_false, ite_false]
    exact ih X (fun x hx => h x (by simp [hx]))

theorem stripCmdsAux_skip : ∀ (s X : List Char), (∀ c ∈ s, (c = lb) = False) →
    stripCmdsAux none (s ++ X) = s ++ stripCmdsAux none X := by
  intro s
  induction s with
  | nil => intro X _; rfl
  | cons c r ih =>
    intro X h
    have hc : ¬(c = lb) := (h c (by simp)) ▸ id
    simp only [List.cons_append, stripCmdsAux, hc, if_false, ite_false,
      List.append_eq]
    rw [ih X (fun x hx => h x (by simp [hx]))]

theorem findCmdsAux_pending : ∀ (inner : List Char), rb ∉ inner →
    ∀ (acc X : List Char), acc ++ inner ≠ [] →
      findCmdsAux (some acc) (inner ++ rb :: X)
        = (lb :: (acc ++ inner) ++ [rb]) :: findCmdsAux none X := by
  intro inner
  induction inner with
  | nil =>
    intro _ acc X hne
    have hacc : acc.isEmpty = false := by
      cases acc with
      | nil => exact absurd rfl hne
      | cons a r => rfl
    simp only [List.nil_append, findCmdsAux, if_pos rfl, ite_true, hacc,
      Bool.false_eq_true, if_false, ite_false, List.append_nil]
  | cons c inner' ih =>
    intro h acc X _
    have hc : c ≠ rb := fun hc => h (by simp [hc])
    have hr : rb ∉ inner' := fun hm => h (by simp [hm])
    simp only [List.cons_append, findCmdsAux, hc, if_false, ite_false,
      List.append_eq]
    rw [ih hr (acc ++ [c]) X (by simp)]
    simp

theorem findCmdsAux_cmd (inner X : List Char) (hrb : rb ∉ inner)
    (hne : inner ≠ []) :
    findCmdsAux none (lb :: inner ++ rb :: X)
      = (lb :: inner ++ [rb]) :: findCmdsAux none X := by
  have h0 : findCmdsAux none (lb :: inner ++ rb :: X)
      = findCmdsAux (some []) (inner ++ rb :: X) := by
    simp [findCmdsAux]
  rw [h0, findCmdsAux_pending inner hrb [] X (by simpa using hne)]
  simp

theorem stripCmdsAux_cmd (inner X : List Char) (hrb : rb ∉ inner)
    (hne : inner ≠ []) :
    stripCmdsAux none (lb :: inner ++ rb :: X) = stripCmdsAux none X := by
  have h0 : stripCmdsAux none (lb :: inner ++ rb :: X)
      = stripCmdsAux (some []) (inner ++ rb :: X) := by
    simp [stripCmdsAux]
  rw [h0, stripCmdsAux_to_rb inner hrb [] X]
  rw [if_neg (by simpa using hne)]

/-! ## Round-trip: commands re-parse to themselves -/

theorem renderCmd_decomp (c : Cmd) : renderCmd c = lb :: innerOf c ++ [rb] := by
  cases c <;> simp [renderCmd, renderAction, cmdType, cmdPayload, innerOf,
    wKey, dKey, hKey, eKey, nKey]

theorem goodQ_no_rb (s : List Char) (h : s.all goodQChar = true) :
    s.all (fun c => !(c = rb)) = true := by
  refine all_mono (fun c hc => ?_) s h
  simp only [goodQChar, Bool.and_eq_true] at hc
  exact hc.1.2

theorem isLC_no_rb (s : List Char) (h : s.all isLC = true) :
    s.all (fun c => !(c = rb)) = true := by
  refine all_mono (fun c hc => ?_) s h
  simp only [isLC, Bool.and_eq_true, decide_eq_true_eq] at hc
  simp only [Bool.not_eq_true', decide_eq_false_iff_not]
  intro he
  subst he
  rcases hc with ⟨h1, h2⟩
  exact absurd h2 (by decide)

theorem innerOf_no_rb (c : Cmd) (h : wfCmd c = true) : rb ∉ innerOf c := by
  apply not_mem_of_all_ne
  cases c with
  | draw s =>
    simp only [wfCmd, Bool.and_eq_true] at h
    simp only [innerOf, List.all_cons, isLC_no_rb s h.2, Bool.and_true]
    decide
  | write s =>
    simp only [wfCmd, Bool.and_eq_true] at h
    simp only [innerOf, List.all_cons, List.all_append,
      goodQ_no_rb s h.2, Bool.true_and, Bool.and_true]
    decide
  | highlight s =>
    simp only [wfCmd, Bool.and_eq_true] at h
    simp only [innerOf, List.all_cons, List.all_append,
      goodQ_no_rb s h.2, Bool.true_and, Bool.and_true]
    decide
  | erase s =>
    simp only [wfCmd, Bool.and_eq_true] at h
    simp only [innerOf, List.all_cons, List.all_append,
      goodQ_no_rb s h.2, Bool.true_and, Bool.and_true]
    decide
  | newpage s =>
    simp only [wfCmd, Bool.and_eq_true] at h
    simp only [innerOf, List.all_cons, List.all_append,
      goodQ_no_rb s h.2, Bool.true_and, Bool.and_true]
    decide

theorem innerOf_ne_nil (c : Cmd) : innerOf c ≠ [] := by
  cases c <;> simp [innerOf]

theorem goodQ_no_quote (s : List Char) (h : s.all goodQChar = true) :
    ∀ c ∈ s, (!(c = '"')) = true := by
  intro c hc
  have := List.all_eq_true.mp h c hc
  simp only [goodQChar, Bool.and_eq_true] at this
  exact this.1.1.1

theorem quoted_payload_facts (s : List Char) (h : s.all goodQChar = true) :
    List.dropWhile (fun c => !(c = '"')) (s ++ ['"', rb]) = '"' :: [rb] ∧
    List.takeWhile (fun c => !(c = '"')) (s ++ ['"', rb]) = s := by
  have hq := goodQ_no_quote s h
  constructor
  · rw [show (['"', rb] : List Char) = '"' :: [rb] from rfl,
      dropWhile_append_all _ s _ hq, List.dropWhile_cons]
    simp
  · rw [show (['"', rb] : List Char) = '"' :: [rb] from rfl,
      takeWhile_append_all _ s _ hq, List.takeWhile_cons]
    simp

theorem draw_payload_facts (s : List Char) (h : s.all isLC = true) :
    List.dropWhile isLC (s ++ [rb]) = [rb] ∧
    List.takeWhile isLC (s ++ [rb]) = s := by
  have hlc : ∀ c ∈ s, isLC c = true := List.all_eq_true.mp h
  constructor
  · rw [dropWhile_append_all _ s _ hlc, List.dropWhile_cons]
    simp [show isLC rb = false from rfl]
  · rw [takeWhile_append_all _ s _ hlc, List.takeWhile_cons]
    simp [show isLC rb = false from rfl]

theorem tryQuoted_write (s : List Char) (h : s.all goodQChar = true) :
    tryQuoted wKey (renderAction ActionType.write s) = some s := by
  obtain ⟨hdw, htw⟩ := quoted_payload_facts s h
  simp only [tryQuoted, renderAction, stripPfx_self]
  simp only [List.dropWhile_cons, show isJsWS ' ' = true from rfl, if_true, ite_true,
    show isJsWS '"' = false from rfl, Bool.false_eq_true, if_false, ite_false]
  rw [hdw, htw]
  rfl

theorem matchQuoted_write (s : List Char) (h : s.all goodQChar = true) :
    matchQuoted wKey (renderAction ActionType.write s) = some s := by
  have ht := tryQuoted_write s h
  rw [show renderAction ActionType.write s
      = lb :: ('w' :: 'r' :: 'i' :: 't' :: 'e' :: ':' :: ' ' :: '"'
          :: (s ++ ['"', rb])) from rfl] at ht ⊢
  simp only [matchQuoted, ht]

theorem tryQuoted_highlight (s : List Char) (h : s.all goodQChar = true) :
    tryQuoted hKey (renderAction ActionType.highlight s) = some s := by
  obtain ⟨hdw, htw⟩ := quoted_payload_facts s h
  simp only [tryQuoted, renderAction, stripPfx_self]
  simp only [List.dropWhile_cons, show isJsWS ' ' = true from rfl, if_true, ite_true,
    show isJsWS '"' = false from rfl, Bool.false_eq_true, if_false, ite_false]
  rw [hdw, htw]
  rfl

theorem matchQuoted_highlight (s : List Char) (h : s.all goodQChar = true) :
    matchQuoted hKey (renderAction ActionType.highlight s) = some s := by
  have ht := tryQuoted_highlight s h
  rw [show renderAction ActionType.highlight s
      = lb :: ('h' :: 'i' :: 'g' :: 'h' :: 'l' :: 'i' :: 'g' :: 'h' :: 't' :: ':'
          :: ' ' :: '"' :: (s ++ ['"', rb])) from rfl] at ht ⊢
  simp only [matchQuoted, ht]

theorem tryQuoted_erase (s : List Char) (h : s.all goodQChar = true) :
    tryQuoted eKey (renderAction ActionType.erase s) = some s := by
  obtain ⟨hdw, htw⟩ := quoted_payload_facts s h
  simp only [tryQuoted, renderAction, stripPfx_self]
  simp only [List.dropWhile_cons, show isJsWS ' ' = true from rfl, if_true, ite_true,
    show isJsWS '"' = false from rfl, Bool.false_eq_true, if_false, ite_false]
  rw [hdw, htw]
  rfl

theorem matchQuoted_erase (s : List Char) (h : s.all goodQChar = true) :
    matchQuoted eKey (renderAction ActionType.erase s) = some s := by
  have ht := tryQuoted_erase s h
  rw [show renderAction ActionType.erase s
      = lb :: ('e' :: 'r' :: 'a' :: 's' :: 'e' :: ':' :: ' ' :: '"'
          :: (s ++ ['"', rb])) from rfl] at ht ⊢
  simp only [matchQuoted, ht]

theorem tryQuoted_newpage (s : List Char) (h : s.all goodQChar = true) :
    tryQuoted nKey (renderAction ActionType.newpage s) = some s := by
  obtain ⟨hdw, htw⟩ := quoted_payload_facts s h
  simp only [tryQuoted, renderAction, stripPfx_self]
  simp only [List.dropWhile_cons, show isJsWS ' ' = true from rfl, if_true, ite_true,
    show isJsWS '"' = false from rfl, Bool.false_eq_true, if_false, ite_false]
  rw [hdw, htw]
  rfl

theorem matchQuoted_newpage (s : List Char) (h : s.all goodQChar = true) :
    matchQuoted nKey (renderAction ActionType.newpage s) = some s := by
  have ht := tryQuoted_newpage s h
  rw [show renderAction ActionType.newpage s
      = lb :: ('n' :: 'e' :: 'w' :: 'p' :: 'a' :: 'g' :: 'e' :: ':' :: ' ' :: '"'
          :: (s ++ ['"', rb])) from rfl] at ht ⊢
  simp only [matchQuoted, ht]

theorem tryDraw_render (s : List Char) (h : s.all isLC = true)
    (hne : s.isEmpty = false) :
    tryDraw (renderAction ActionType.draw s) = some s := by
  obtain ⟨hdw, htw⟩ := draw_payload_facts s h
  simp only [tryDraw, renderAction, stripPfx_self]
  rw [hdw, htw]
  simp [hne]

theorem matchDraw_render (s : List Char) (h : s.all isLC = true)
    (hne : s.isEmpty = false) :
    matchDraw (renderAction ActionType.draw s) = some s := by
  have ht := tryDraw_render s h hne
  rw [show renderAction ActionType.draw s
      = lb :: ('d' :: 'r' :: 'a' :: 'w' :: ':' :: (s ++ [rb])) from rfl] at ht ⊢
  simp only [matchDraw, ht]

theorem classify_render (c : Cmd) (h : wfCmd c = true) :
    classify (renderCmd c) = (cmdType c, cmdPayload c) := by
  cases c with
  | write s =>
    simp only [wfCmd, Bool.and_eq_true] at h
    simp only [renderCmd, cmdType, cmdPayload, classify]
    have hpos : startsWithL wKey (renderAction ActionType.write s) = true :=
      startsWithL_self wKey _
    rw [if_pos hpos, matchQuoted_write s h.2]
    rfl
  | draw s =>
    simp only [wfCmd, Bool.and_eq_true, Bool.not_eq_true'] at h
    simp only [renderCmd, cmdType, cmdPayload, classify]
    rw [if_neg (by rw [show startsWithL wKey (renderAction ActionType.draw s)
          = false from rfl]; exact Bool.false_ne_true),
      show startsWithL dKey (renderAction ActionType.draw s) = true from
        startsWithL_self dKey _, if_pos rfl, matchDraw_render s h.2 h.1]
    rfl
  | highlight s =>
    simp only [wfCmd, Bool.and_eq_true] at h
    simp only [renderCmd, cmdType, cmdPayload, classify]
    rw [if_neg (by rw [show startsWithL wKey (renderAction ActionType.highlight s)
          = false from rfl]; exact Bool.false_ne_true),
      if_neg (by rw [show startsWithL dKey (renderAction ActionType.highlight s)
          = false from rfl]; exact Bool.false_ne_true),
      show startsWithL hKey (renderAction ActionType.highlight s) = true from
        startsWithL_self hKey _, if_pos rfl, matchQuoted_highlight s h.2]
    rfl
  | erase s =>
    simp only [wfCmd, Bool.and_eq_true] at h
    simp only [renderCmd, cmdType, cmdPayload, classify]
    rw [if_neg (by rw [show startsWithL wKey (renderAction ActionType.erase s)
          = false from rfl]; exact Bool.false_ne_true),
      if_neg (by rw [show startsWithL dKey (renderAction ActionType.erase s)
          = false from rfl]; exact Bool.false_ne_true),
      if_neg (by rw [show startsWithL hKey (renderAction ActionType.erase s)
          = false from rfl]; exact Bool.false_ne_true),
      show startsWithL eKey (renderAction ActionType.erase s) = true from
        startsWithL_self eKey _, if_pos rfl, matchQuoted_erase s h.2]
    rfl
  | newpage s =>
    simp only [wfCmd, Bool.and_eq_true] at h
    simp only [renderCmd, cmdType, cmdPayload, classify]
    rw [if_neg (by rw [show startsWithL wKey (renderAction ActionType.newpage s)
          = false from rfl]; exact Bool.false_ne_true),
      if_neg (by rw [show startsWithL dKey (renderAction ActionType.newpage s)
          = false from rfl]; exact Bool.false_ne_true),
      if_neg (by rw [show startsWithL hKey (renderAction ActionType.newpage s)
          = false from rfl]; exact Bool.false_ne_true),
      if_neg (by rw [show startsWithL eKey (renderAction ActionType.newpage s)
          = false from rfl]; exact Bool.false_ne_true),
      show startsWithL nKey (renderAction ActionType.newpage s) = true from
        startsWithL_self nKey _, if_pos rfl, matchQuoted_newpage s h.2]
    rfl

theorem pushAct_render (ts : Nat) (c : Cmd) (h : wfCmd c = true) :
    pushAct ts (renderCmd c)
      = some ⟨cmdType c, cmdPayload c, ts, false⟩ := by
  rw [pushAct, classify_render c h]
  cases c with
  | draw s => simp [cmdType, cmdPayload]
  | write s =>
    simp only [wfCmd, Bool.and_eq_true, Bool.not_eq_true'] at h
    simp [cmdPayload, h.1]
  | highlight s =>
    simp only [wfCmd, Bool.and_eq_true, Bool.not_eq_true'] at h
    simp [cmdPayload, h.1]
  | erase s =>
    simp only [wfCmd, Bool.and_eq_true, Bool.not_eq_true'] at h
    simp [cmdPayload, h.1]
  | newpage s =>
    simp only [wfCmd, Bool.and_eq_true, Bool.not_eq_true'] at h
    simp [cmdPayload, h.1]

/-! ## Round-trip: whole bodies -/

theorem goodT_not_lb (s : List Char) (h : s.all goodTChar = true) :
    ∀ c ∈ s, (c = lb) = False := by
  intro c hc
  have := List.all_eq_true.mp h c hc
  simp only [goodTChar, Bool.and_eq_true, Bool.not_eq_true',
    decide_eq_false_iff_not] at this
  simp [this.1.1]

theorem findCmds_body : ∀ (segs : List Seg), segs.all wfSeg = true →
    findCmds (renderBody segs) = (cmdsOf segs).map renderCmd := by
  intro segs
  induction segs with
  | nil => intro _; rfl
  | cons sg rest ih =>
    intro h
    rw [List.all_cons, Bool.and_eq_true] at h
    have hbody : renderBody (sg :: rest) = renderSeg sg ++ renderBody rest := by
      simp [renderBody]
    cases sg with
    | text s =>
      have hs : s.all goodTChar = true := by
        have := h.1
        simp only [wfSeg, Bool.and_eq_true] at this
        exact this.2
      rw [show findCmds (renderBody (Seg.text s :: rest))
            = findCmdsAux none (renderBody (Seg.text s :: rest)) from rfl, hbody]
      rw [show renderSeg (Seg.text s) = s from rfl,
        findCmdsAux_skip s _ (goodT_not_lb s hs)]
      rw [show cmdsOf (Seg.text s :: rest) = cmdsOf rest from rfl]
      exact ih h.2
    | cmd c =>
      have hw : wfCmd c = true := h.1
      rw [show findCmds (renderBody (Seg.cmd c :: rest))
            = findCmdsAux none (renderBody (Seg.cmd c :: rest)) from rfl, hbody]
      rw [show renderSeg (Seg.cmd c) = renderCmd c from rfl, renderCmd_decomp c]
      rw [show (lb :: innerOf c ++ [rb]) ++ renderBody rest
            = lb :: innerOf c ++ rb :: renderBody rest by simp]
      rw [findCmdsAux_cmd (innerOf c) (renderBody rest) (innerOf_no_rb c hw)
        (innerOf_ne_nil c)]
      rw [show cmdsOf (Seg.cmd c :: rest) = c :: cmdsOf rest from rfl, List.map_cons,
        renderCmd_decomp c]
      rw [show findCmdsAux none (renderBody rest) = findCmds (renderBody rest) from rfl,
        ih h.2]

theorem stripCmds_body : ∀ (segs : List Seg), segs.all wfSeg = true →
    stripCmds (renderBody segs) = chunksOf segs := by
  intro segs
  induction segs with
  | nil => intro _; rfl
  | cons sg rest ih =>
    intro h
    rw [List.all_cons, Bool.and_eq_true] at h
    have hbody : renderBody (sg :: rest) = renderSeg sg ++ renderBody rest := by
      simp [renderBody]
    cases sg with
    | text s =>
      have hs : s.all goodTChar = true := by
        have := h.1
        simp only [wfSeg, Bool.and_eq_true] at this
        exact this.2
      rw [show stripCmds (renderBody (Seg.text s :: rest))
            = stripCmdsAux none (renderBody (Seg.text s :: rest)) from rfl, hbody]
      rw [show renderSeg (Seg.text s) = s from rfl,
        stripCmdsAux_skip s _ (goodT_not_lb s hs)]
      rw [show chunksOf (Seg.text s :: rest) = s ++ chunksOf rest by
        simp [chunksOf]]
      rw [show stripCmdsAux none (renderBody rest) = stripCmds (renderBody rest)
        from rfl, ih h.2]
    | cmd c =>
      have hw : wfCmd c = true := h.1
      rw [show stripCmds (renderBody (Seg.cmd c :: rest))
            = stripCmdsAux none (renderBody (Seg.cmd c :: rest)) from rfl, hbody]
      rw [show renderSeg (Seg.cmd c) = renderCmd c from rfl, renderCmd_decomp c]
      rw [show (lb :: innerOf c ++ [rb]) ++ renderBody rest
            = lb :: innerOf c ++ rb :: renderBody rest by simp]
      rw [stripCmdsAux_cmd (innerOf c) (renderBody rest) (innerOf_no_rb c hw)
        (innerOf_ne_nil c)]
      rw [show chunksOf (Seg.cmd c :: rest) = chunksOf rest by simp [chunksOf]]
      rw [show stripCmdsAux none (renderBody rest) = stripCmds (renderBody rest)
        from rfl, ih h.2]

theorem renderSeg_ne_nil (sg : Seg) (h : wfSeg sg = true) : renderSeg sg ≠ [] := by
  cases sg with
  | text s =>
    simp only [wfSeg, Bool.and_eq_true, Bool.not_eq_true'] at h
    simp only [renderSeg]
    intro he
    rw [he] at h
    simp at h
  | cmd c =>
    simp only [renderSeg, renderCmd_decomp]
    exact List.cons_ne_nil _ _

theorem renderBody_ne_nil (segs : List Seg) (h : segs.all wfSeg = true)
    (hne : segs.isEmpty = false) : renderBody segs ≠ [] := by
  cases segs with
  | nil => simp at hne
  | cons sg rest =>
    rw [List.all_cons, Bool.and_eq_true] at h
    have : renderBody (sg :: rest) = renderSeg sg ++ renderBody rest := by
      simp [renderBody]
    rw [this]
    intro he
    rw [List.append_eq_nil] at he
    exact renderSeg_ne_nil sg h.1 he.1

theorem chunks_of_no_cmds : ∀ (segs : List Seg), cmdsOf segs = [] →
    chunksOf segs = renderBody segs := by
  intro segs
  induction segs with
  | nil => intro _; rfl
  | cons sg rest ih =>
    intro h
    cases sg with
    | cmd c => simp [cmdsOf] at h
    | text s =>
      have h' : cmdsOf rest = [] := by simpa [cmdsOf] using h
      rw [show chunksOf (Seg.text s :: rest) = s ++ chunksOf rest by simp [chunksOf],
        show renderBody (Seg.text s :: rest) = s ++ renderBody rest by
          simp [renderBody, renderSeg],
        ih h']

theorem cmdsOf_wf : ∀ (segs : List Seg), segs.all wfSeg = true →
    (cmdsOf segs).all wfCmd = true := by
  intro segs
  induction segs with
  | nil => intro _; rfl
  | cons sg rest ih =>
    intro h
    rw [List.all_cons, Bool.and_eq_true] at h
    cases sg with
    | text s => simpa [cmdsOf] using ih h.2
    | cmd c =>
      rw [show cmdsOf (Seg.cmd c :: rest) = c :: cmdsOf rest from rfl, List.all_cons,
        Bool.and_eq_true]
      exact ⟨h.1, ih h.2⟩

theorem filterMap_pushAct (ts : Nat) : ∀ (cs : List Cmd), cs.all wfCmd = true →
    (cs.map renderCmd).filterMap (pushAct ts)
      = cs.map (fun c => (⟨cmdType c, cmdPayload c, ts, false⟩ : Action)) := by
  intro cs
  induction cs with
  | nil => intro _; rfl
  | cons c rest ih =>
    intro h
    rw [List.all_cons, Bool.and_eq_true] at h
    rw [List.map_cons, List.filterMap_cons, pushAct_render ts c h.1, List.map_cons,
      ih h.2]

/-! ## Round-trip: whole scripts -/

theorem goodQ_no_nl (s : List Char) (h : s.all goodQChar = true) :
    s.all (fun c => !(c = '\n')) = true := by
  refine all_mono (fun c hc => ?_) s h
  simp only [goodQChar, Bool.and_eq_true] at hc
  exact hc.2

theorem isLC_no_nl (s : List Char) (h : s.all isLC = true) :
    s.all (fun c => !(c = '\n')) = true := by
  refine all_mono (fun c hc => ?_) s h
  simp only [isLC, Bool.and_eq_true, decide_eq_true_eq] at hc
  simp only [Bool.not_eq_true', decide_eq_false_iff_not]
  intro he
  subst he
  exact absurd hc.1 (by decide)

theorem goodT_no_nl (s : List Char) (h : s.all goodTChar = true) :
    s.all (fun c => !(c = '\n')) = true := by
  refine all_mono (fun c hc => ?_) s h
  simp only [goodTChar, Bool.and_eq_true] at hc
  exact hc.2

theorem all_flatten (p : Char → Bool) : ∀ (ls : List (List Char)),
    ls.flatten.all p = ls.all (fun l => l.all p) := by
  intro ls
  induction ls with
  | nil => rfl
  | cons l rest ih => simp [List.all_append, ih]

theorem renderSeg_no_nl (sg : Seg) (h : wfSeg sg = true) :
    (renderSeg sg).all (fun c => !(c = '\n')) = true := by
  cases sg with
  | text s =>
    simp only [wfSeg, Bool.and_eq_true] at h
    exact goodT_no_nl s h.2
  | cmd c =>
    cases c with
    | draw s =>
      have hs : s.all isLC = true := by
        have := h
        simp only [wfSeg, wfCmd, Bool.and_eq_true] at this
        exact this.2
      simp [renderSeg, renderCmd, renderAction, cmdType, cmdPayload, dKey,
        List.all_cons, List.all_append,
        isLC_no_nl s hs]
      exact ⟨by decide, by decide⟩
    | write s =>
      have hs : s.all goodQChar = true := by
        have := h
        simp only [wfSeg, wfCmd, Bool.and_eq_true] at this
        exact this.2
      simp [renderSeg, renderCmd, renderAction, cmdType, cmdPayload, wKey,
        List.all_cons, List.all_append,
        goodQ_no_nl s hs]
      exact ⟨by decide, by decide⟩
    | highlight s =>
      have hs : s.all goodQChar = true := by
        have := h
        simp only [wfSeg, wfCmd, Bool.and_eq_true] at this
        exact this.2
      simp [renderSeg, renderCmd, renderAction, cmdType, cmdPayload, hKey,
        List.all_cons, List.all_append,
        goodQ_no_nl s hs]
      exact ⟨by decide, by decide⟩
    | erase s =>
      have hs : s.all goodQChar = true := by
        have := h
        simp only [wfSeg, wfCmd, Bool.and_eq_true] at this
        exact this.2
      simp [renderSeg, renderCmd, renderAction, cmdType, cmdPayload, eKey,
        List.all_cons, List.all_append,
        goodQ_no_nl s hs]
      exact ⟨by decide, by decide⟩
    | newpage s =>
      have hs : s.all goodQChar = true := by
        have := h
        simp only [wfSeg, wfCmd, Bool.and_eq_true] at this
        exact this.2
      simp [renderSeg, renderCmd, renderAction, cmdType, cmdPayload, nKey,
        List.all_cons, List.all_append,
        goodQ_no_nl s hs]
      exact ⟨by decide, by decide⟩

theorem digitChar_ne_nl (d : Nat) : (!(digitChar d = '\n')) = true := by
  rcases d with _ | _ | _ | _ | _ | _ | _ | _ | _ | d9 <;> rfl

theorem renderLine_no_nl (l : Line) (h : wfLine l = true) :
    '\n' ∉ renderLine l := by
  apply not_mem_of_all_ne
  simp only [wfLine, Bool.and_eq_true] at h
  have hsegs : l.segs.all wfSeg = true := h.1.2
  rw [show renderLine l = renderTs l.mm l.ss ++ renderBody l.segs from rfl,
    List.all_append, Bool.and_eq_true]
  constructor
  · simp [renderTs, List.all_cons, digitChar_ne_nl]
  · rw [show renderBody l.segs = (l.segs.map renderSeg).flatten from rfl,
      all_flatten]
    rw [List.all_eq_true]
    intro x hx
    rw [List.mem_map] at hx
    obtain ⟨sg, hsg, hxe⟩ := hx
    subst hxe
    exact renderSeg_no_nl sg (List.all_eq_true.mp hsegs sg hsg)

/-! ## Round-trip: splitting rendered scripts -/

theorem isEmpty_false_of_ne_nil {α : Type} (l : List α) (h : l ≠ []) :
    l.isEmpty = false := by
  cases l with
  | nil => exact absurd rfl h
  | cons a t => rfl

theorem splitLines_no_nl : ∀ (l : List Char), '\n' ∉ l → splitLines l = [l] := by
  intro l
  induction l with
  | nil => intro _; rfl
  | cons c rest ih =>
    intro h
    have hc : ¬ c = '\n' := by
      intro he
      exact h (by rw [he]; exact List.mem_cons_self _ _)
    have hr : splitLines rest = [rest] := ih (fun hm => h (List.mem_cons_of_mem c hm))
    show (if c = '\n' then [] :: splitLines rest
          else match splitLines rest with
            | l :: ls => (c :: l) :: ls
            | [] => [[c]]) = [c :: rest]
    rw [if_neg hc, hr]

theorem splitLines_append : ∀ (a b : List Char), '\n' ∉ a →
    splitLines (a ++ '\n' :: b) = a :: splitLines b := by
  intro a
  induction a with
  | nil =>
    intro b _
    show (if '\n' = '\n' then [] :: splitLines b
          else match splitLines b with
            | l :: ls => ('\n' :: l) :: ls
            | [] => [['\n']]) = [] :: splitLines b
    rw [if_pos rfl]
  | cons c rest ih =>
    intro b h
    have hc : ¬ c = '\n' := by
      intro he
      exact h (by rw [he]; exact List.mem_cons_self _ _)
    have hr := ih b (fun hm => h (List.mem_cons_of_mem c hm))
    show (if c = '\n' then [] :: splitLines (rest ++ '\n' :: b)
          else match splitLines (rest ++ '\n' :: b) with
            | l :: ls => (c :: l) :: ls
            | [] => [[c]]) = (c :: rest) :: splitLines b
    rw [if_neg hc, hr]

/-! ## Round-trip: one rendered line through the `forEach` body -/

theorem renderLine_trim_ne (l : Line) : (trimL (renderLine l)).isEmpty = false := by
  have he : renderLine l
      = '[' :: ([digitChar (l.mm / 10), digitChar (l.mm % 10), ':',
          digitChar (l.ss / 10), digitChar (l.ss % 10), ']'] ++ renderBody l.segs) := rfl
  rw [he]
  exact trimL_head_not_ws '[' _ (by decide)

theorem tsMatch_renderLine (l : Line) (hm : l.mm < 100) (hs : l.ss < 100) :
    tsMatch (renderLine l) = some (l.mm, l.ss, renderBody l.segs) :=
  tsMatch_render l.mm l.ss hm hs (renderBody l.segs)

theorem parseLinesFrom_cons_render (prev : Nat) (l : Line) (rest : List (List Char))
    (h : wfLine l = true) :
    parseLinesFrom prev (renderLine l :: rest)
      = ((cmdsOf l.segs).map
            (fun c => (⟨cmdType c, cmdPayload c, (l.mm * 60 + l.ss) * 1000, false⟩ : Action))
           ++ (parseLinesFrom ((l.mm * 60 + l.ss) * 1000) rest).1,
         (if (trimL (chunksOf l.segs)).isEmpty then ([] : List SpeechSegment) else
           [⟨trimL (chunksOf l.segs), (l.mm * 60 + l.ss) * 1000,
             some ((((l.mm * 60 + l.ss) * 1000 : Nat) : Int) - (prev : Int))⟩])
           ++ (parseLinesFrom ((l.mm * 60 + l.ss) * 1000) rest).2) := by
  simp only [wfLine, Bool.and_eq_true, Bool.not_eq_true', decide_eq_true_eq] at h
  obtain ⟨⟨⟨⟨hm, hs⟩, hne⟩, hsegs⟩, htrim⟩ := h
  have hwf : (cmdsOf l.segs).all wfCmd = true := cmdsOf_wf l.segs hsegs
  have h1 : (trimL (renderLine l)).isEmpty = false := renderLine_trim_ne l
  have h2 : tsMatch (renderLine l) = some (l.mm, l.ss, renderBody l.segs) :=
    tsMatch_renderLine l hm hs
  simp only [parseLinesFrom, h1, Bool.false_eq_true, if_false, h2, htrim,
    findCmds_body l.segs hsegs]
  cases hc : cmdsOf l.segs with
  | nil =>
    have hch : chunksOf l.segs = renderBody l.segs := chunks_of_no_cmds l.segs hc
    have hb : (trimL (chunksOf l.segs)).isEmpty = false := by
      rw [hch, htrim]
      exact isEmpty_false_of_ne_nil _ (renderBody_ne_nil l.segs hsegs hne)
    have hnn : renderBody l.segs ≠ [] := renderBody_ne_nil l.segs hsegs hne
    simp [hb, hch, htrim, hnn]
  | cons c0 cs =>
    rw [hc] at hwf
    have hfm := filterMap_pushAct ((l.mm * 60 + l.ss) * 1000) (c0 :: cs) hwf
    simp only [List.map_cons] at hfm
    simp [lineActions, findCmds_body l.segs hsegs, hc, hfm, htrim,
      stripCmds_body l.segs hsegs]

/-! ## Round-trip: whole scripts through `parseResponse` -/

theorem parse_impl_aux : ∀ (ls : List Line), ∀ (prev : Nat), ls.all wfLine = true →
    parseLinesFrom prev (splitLines (renderScript ls)) = impliedParseFrom prev ls := by
  intro ls
  induction ls with
  | nil => intro prev _; rfl
  | cons l rest ih =>
    intro prev h
    rw [List.all_cons, Bool.and_eq_true] at h
    cases rest with
    | nil =>
      have hscript : renderScript [l] = renderLine l := by
        simp [renderScript]
      rw [hscript, splitLines_no_nl _ (renderLine_no_nl l h.1),
        parseLinesFrom_cons_render prev l [] h.1]
      simp [impliedParseFrom, tsOf, parseLinesFrom]
    | cons l2 t =>
      have hscript : renderScript (l :: l2 :: t)
          = renderLine l ++ '\n' :: renderScript (l2 :: t) := rfl
      rw [hscript, splitLines_append _ _ (renderLine_no_nl l h.1),
        parseLinesFrom_cons_render prev l _ h.1, ih ((l.mm * 60 + l.ss) * 1000) h.2]
      simp [impliedParseFrom, tsOf]

theorem implied_renders : ∀ (ls : List Line) (prev : Nat),
    ((impliedParseFrom prev ls).1).map (fun a => renderAction a.type a.content)
      = ((ls.map (fun l => cmdsOf l.segs)).flatten).map renderCmd := by
  intro ls
  induction ls with
  | nil => intro prev; rfl
  | cons l rest ih =>
    intro prev
    simp only [impliedParseFrom, List.map_cons, List.flatten_cons, List.map_append,
      List.map_map, ih]
    rfl

/-- C6, amended.  Parser round-trip on the documented grammar holds for
scripts of well-formed lines: two-digit timestamp fields, a non-empty
body with no leading or trailing whitespace, narration chunks free of
braces and newlines, and every command carrying a NON-EMPTY payload
(quote-, brace- and newline-free; a lowercase token for `draw`).  For
such scripts `parseResponse` returns exactly the action list and
speech-segment list implied by direct construction, and re-rendering the
parsed actions through the canonical per-type format strings reproduces
the original command substrings, in order, character for character.  (The
unamended claim fails: a documented command with an empty payload, such
as `\x7bwrite: ""\x7d`, is dropped by the `actionContent || type === 'draw'`
push filter — see the counterexample.) -/
theorem parser_roundtrip (ls : List Line) (h : ls.all wfLine = true) :
    parseResponse (renderScript ls) = impliedParse ls ∧
      (parseResponse (renderScript ls)).1.map
          (fun a => renderAction a.type a.content)
        = ((ls.map (fun l => cmdsOf l.segs)).flatten).map renderCmd := by
  have h0 : parseResponse (renderScript ls) = impliedParse ls :=
    parse_impl_aux ls 0 h
  refine ⟨h0, ?_⟩
  rw [h0]
  exact implied_renders ls 0

/-- C6 witness: the concrete two-line script `rtLines` (narration plus a
`write` command, then a lone `draw` command) is well-formed and the
round-trip theorem applies to it. -/
theorem parser_roundtrip_witness :
    rtLines.all wfLine = true ∧
      (parseResponse (renderScript rtLines) = impliedParse rtLines ∧
        (parseResponse (renderScript rtLines)).1.map
            (fun a => renderAction a.type a.content)
          = ((rtLines.map (fun l => cmdsOf l.segs)).flatten).map renderCmd) :=
  ⟨by decide, parser_roundtrip rtLines (by decide)⟩


end AiTutor
